import Mathlib

/-!
Verification development for the task-time consolidation and reconciliation
engine of the Task Timr repository (src/timr_utils.py, src/timr_api.py,
src/working_time_utils.py).

Embedding conventions:
* Instants (Python `datetime` values) are integers counting microseconds,
  mirroring `datetime`'s microsecond resolution.  `timedelta(minutes=m)` is
  `m * 60000000`, one second is `1000000`.
* Dictionaries coming from the Timr API (`working time` and `project time`
  dicts) are structures.  A missing or unparsable datetime string is `none`;
  a present, parsable one is `some instant` (parsing itself, including the
  Z-suffix normalization done throughout the source, is abstracted away).
  A missing task id is the empty string, matching Python truthiness checks
  of the form `if not task_id`.
* Backend API calls issued by the reconciler are reified as `Operation`
  values, in the exact order the source issues them.
* Python `sorted(..., key=lambda x: (x.task_name or "", x.task_id),
  reverse=True)` compares strings by code points; `charlistLtb` below is
  that comparison, and the stable descending sort is `List.insertionSort`
  with the reflexive closure of the corresponding strict order.
-/

/-! ## Definitions: the shallow embedding of the source -/

/-- Strict code-point comparison of two characters, as Python compares the
characters of strings. -/
def charLtb (a b : Char) : Bool := decide (a < b)

/-- Lexicographic code-point comparison of two character lists: exactly
Python's `<` on strings. -/
def charlistLtb : List Char → List Char → Bool
  | _, [] => false
  | [], _ :: _ => true
  | a :: as, b :: bs => if a = b then charlistLtb as bs else charLtb a b

/-- Python string comparison `a < b` (code-point lexicographic). -/
def strLtb (a b : String) : Bool := charlistLtb a.data b.data

/-- Python tuple comparison on `(task_name, task_id)` pairs: lexicographic,
first component first. -/
def keyLtb (a b : String × String) : Bool :=
  if a.1 = b.1 then strLtb a.2 b.2 else strLtb a.1 b.1

/-- Reflexive closure of `keyLtb`: `a` sorts no later than `b`. -/
def keyLeb (a b : String × String) : Bool := keyLtb a b || decide (a = b)

/-- One minute in microseconds (`timedelta(minutes=1)`). -/
def minuteUs : Int := 60000000

/-- One second in microseconds (the update tolerance of
`_project_time_needs_update`). -/
def secondUs : Int := 1000000

/-- UI representation of the time worked on one task
(`UIProjectTime` in src/timr_utils.py; the bookkeeping fields
`project_time_ids`/`source_project_times`/`task_breadcrumbs` play no role in
the verified claims and are omitted). -/
structure UIProjectTime where
  task_id : String
  task_name : String
  duration_minutes : Int
  deleted : Bool
deriving DecidableEq, Inhabited

/-- A raw Timr project-time record as the engine reads it
(`project time` dicts in src/timr_utils.py / src/timr_api.py).
`task_id` is `pt.get('task', dict()).get('id')` with the empty string for a
missing id, `start`/`stop` model the `start`/`end` datetime strings
(`none` = missing or unparsable), `duration` models the optional
`duration.minutes` field used by `_consolidate_by_task`. -/
structure RemoteSlot where
  id : Nat
  task_id : String
  task_name : String
  start : Option Int
  stop : Option Int
  duration : Option Int
deriving DecidableEq, Inhabited

/-- A planned slot produced by `_calculate_time_slots`
(dicts with keys `task_id`, `start`, `end`, `duration_minutes`). -/
structure TimeSlot where
  task_id : String
  start : Int
  stop : Int
  duration_minutes : Int
deriving DecidableEq, Inhabited

/-- A mutating Timr API call issued by the engine
(`create_project_time`, `update_project_time`, `delete_project_time`). -/
inductive Operation where
  | create (task_id : String) (start stop : Int)
  | update (id : Nat) (start stop : Int)
  | delete (id : Nat)
deriving DecidableEq

/-- A working-time record as far as the verified code reads it: the
`start`/`end` datetime strings (`none` = missing/empty/unparsable) and the
optional `duration.minutes` field. -/
structure WorkingTime where
  start : Option Int
  stop : Option Int
  duration : Option Int
deriving DecidableEq

/-- src/working_time_utils.py, `parse_working_time_range`: returns the
(start, end) window of a working time, raising `ValueError` (modelled as
`Except.error`) when start is missing, or when both end and duration are
missing. -/
def parse_working_time_range (wt : WorkingTime) : Except String (Int × Int) :=
  match wt.start with
  | none => Except.error "Working time missing start time"
  | some s =>
    match wt.stop with
    | some e => Except.ok (s, e)
    | none =>
      match wt.duration with
      | some m => Except.ok (s, s + m * minuteUs)
      | none => Except.error "Working time missing end time and duration"

/-- src/timr_api.py, `_calculate_ongoing_working_time_end_for_api`: effective
end of an ongoing working time — start plus the duration hint when present,
otherwise the current UTC time (passed in as `now`). -/
def calculate_ongoing_working_time_end_for_api (wt : WorkingTime)
    (work_start now : Int) : Int :=
  match wt.duration with
  | some m => work_start + m * minuteUs
  | none => now

/-- The overlap test of src/timr_api.py, `_get_project_times_in_work_time`
(lines 989-992): a fetched project time is kept when it overlaps the working
time window; records with missing/unparsable start or end are skipped. -/
def overlapsWindow (ws we : Int) (pt : RemoteSlot) : Bool :=
  match pt.start, pt.stop with
  | some st, some en =>
    (decide (ws ≤ st) && decide (st < we)) ||
    (decide (ws < en) && decide (en ≤ we)) ||
    (decide (st ≤ ws) && decide (we ≤ en))
  | _, _ => false

/-- src/timr_api.py, `_get_project_times_in_work_time`, success path: filter
the backend's project times to the ones overlapping the window `[ws, we]`. -/
def fetchProjectTimes (ws we : Int) (state : List RemoteSlot) :
    List RemoteSlot :=
  state.filter (overlapsWindow ws we)

/-- src/timr_api.py, `_get_project_times_in_work_time`, complete behaviour:
any exception (backend error, unparsable working time, …) is caught and an
empty list is returned (`except Exception: ... return []`).  `none` models a
failing fetch, `some state` a successful one. -/
def get_project_times_in_work_time (ws we : Int)
    (backend : Option (List RemoteSlot)) : List RemoteSlot :=
  match backend with
  | none => []
  | some state => fetchProjectTimes ws we state

/-- Python key function `lambda x: (x.task_name or "", x.task_id)` from
`_calculate_time_slots` (with `task_name` a string, `or ""` is the
identity; a missing name is modelled as the empty string). -/
def keyOf (t : UIProjectTime) : String × String := (t.task_name, t.task_id)

/-- `a` sorts no later than `b` in `sorted(..., reverse=True)`: descending,
so `a` comes first when its key is the larger one. -/
def taskBefore (a b : UIProjectTime) : Prop := keyLeb (keyOf b) (keyOf a) = true

instance : DecidableRel taskBefore := fun a b =>
  inferInstanceAs (Decidable (keyLeb (keyOf b) (keyOf a) = true))

/-- The filter of `_calculate_time_slots`:
`[t for t in tasks if not t.deleted and t.duration_minutes > 0]`. -/
def keepTask (t : UIProjectTime) : Bool := !t.deleted && decide (0 < t.duration_minutes)

/-- `sorted([...], key=lambda x: (x.task_name or "", x.task_id),
reverse=True)`: the stable descending sort of the kept tasks. -/
def sortedTasks (tasks : List UIProjectTime) : List UIProjectTime :=
  List.insertionSort taskBefore (tasks.filter keepTask)

/-- The slot-assignment loop of `_calculate_time_slots` (lines 550-575):
each task starts at `min(cursor, work_end - 1 minute)` and keeps its full
duration; the cursor advances to the slot's end. -/
def slotLoop (we : Int) : List UIProjectTime → Int → List TimeSlot
  | [], _ => []
  | t :: rest, cursor =>
    let max_start_time := we - minuteUs
    let task_start := min cursor max_start_time
    let task_end := task_start + t.duration_minutes * minuteUs
    { task_id := t.task_id, start := task_start, stop := task_end,
      duration_minutes := t.duration_minutes } :: slotLoop we rest task_end

/-- src/timr_utils.py, `ProjectTimeConsolidator._calculate_time_slots`:
filter, sort descending by `(task_name, task_id)`, then pack slots
back-to-back from the window start. -/
def calculate_time_slots (ws we : Int) (tasks : List UIProjectTime) :
    List TimeSlot :=
  slotLoop we (sortedTasks tasks) ws

/-- src/timr_utils.py, `ProjectTimeConsolidator._project_time_needs_update`:
true when the current start or end differs from the desired ones by strictly
more than one second; unparsable current times always need an update. -/
def needsUpdate (current : RemoteSlot) (desired : TimeSlot) : Bool :=
  match current.start, current.stop with
  | some cs, some ce =>
    decide (secondUs < (cs - desired.start).natAbs) ||
    decide (secondUs < (ce - desired.stop).natAbs)
  | _, _ => true

/-- Insertion into a Python dict modelled as an association list: an existing
key keeps its position and gets the new value, a new key is appended. -/
def dictInsert {α : Type} (k : String) (v : α) :
    List (String × α) → List (String × α)
  | [] => [(k, v)]
  | (k', v') :: rest =>
    if k' = k then (k', v) :: rest else (k', v') :: dictInsert k v rest

/-- Python dict lookup (`d.get(k)` / `d[k]`) on the association list. -/
def dictGet {α : Type} : List (String × α) → String → Option α
  | [], _ => none
  | (k', v) :: rest, k => if k' = k then some v else dictGet rest k

/-- The de-duplication loop of `apply_differential_updates` (lines 404-415):
walk the fetched project times, skip records without a task id, keep the
first record per task in the first component and collect later duplicates in
the second; `seen` is the `seen_tasks` set. -/
def dedupLoop : List RemoteSlot → List String → List RemoteSlot × List RemoteSlot
  | [], _ => ([], [])
  | pt :: rest, seen =>
    if pt.task_id = "" then dedupLoop rest seen
    else if pt.task_id ∈ seen then
      let p := dedupLoop rest seen
      (p.1, pt :: p.2)
    else
      let p := dedupLoop rest (pt.task_id :: seen)
      (pt :: p.1, p.2)

/-- `current_by_task` of `apply_differential_updates` (lines 437-441): built
from the de-duplicated list, skipping falsy task ids. -/
def buildCurrentByTask (unique : List RemoteSlot) : List (String × RemoteSlot) :=
  unique.foldl (fun m pt => if pt.task_id = "" then m else dictInsert pt.task_id pt m) []

/-- `desired_by_task` of `apply_differential_updates` (lines 443-445). -/
def buildDesiredByTask (slots : List TimeSlot) : List (String × TimeSlot) :=
  slots.foldl (fun m s => dictInsert s.task_id s m) []

/-- The body of step 2 of `apply_differential_updates` (lines 467-503) for a
single entry of `desired_by_task`: an update when the existing project time
needs one, nothing when it does not, a creation when the task has no current
project time. -/
def upsertOpsFor (current_by_task : List (String × RemoteSlot))
    (p : String × TimeSlot) : List Operation :=
  match dictGet current_by_task p.1 with
  | some current_pt =>
    if needsUpdate current_pt p.2 then
      [Operation.update current_pt.id p.2.start p.2.stop]
    else []
  | none => [Operation.create p.1 p.2.start p.2.stop]

/-- src/timr_utils.py, `ProjectTimeConsolidator.apply_differential_updates`,
as the sequence of mutating API calls it issues given the fetched current
project times: first the duplicate deletions (lines 429-434), then the
deletions of tasks absent from the desired state (lines 455-464, a Python
set iteration modelled here in `current_by_task` insertion order), then the
creations/updates of step 2 in `desired_by_task` order (lines 467-503). -/
def diffOps (current : List RemoteSlot) (ws we : Int)
    (desired_tasks : List UIProjectTime) : List Operation :=
  let dedup := dedupLoop current []
  let desired_time_slots := calculate_time_slots ws we desired_tasks
  let current_by_task := buildCurrentByTask dedup.1
  let desired_by_task := buildDesiredByTask desired_time_slots
  (dedup.2.map (fun dup => Operation.delete dup.id)) ++
    ((current_by_task.filter
        (fun p => (dictGet desired_by_task p.1).isNone)).map
      (fun p => Operation.delete p.2.id)) ++
    desired_by_task.flatMap (upsertOpsFor current_by_task)

/-- A fresh backend id for a created project time: larger than every id in
the store (the model of the backend assigning unique ids). -/
def freshId (state : List RemoteSlot) : Nat :=
  (state.map RemoteSlot.id).foldr max 0 + 1

/-- The model of a backend that applies one mutating call faithfully:
create appends a new record with a fresh id, update rewrites the start/end
of the record with the given id, delete removes it. -/
def applyOp (state : List RemoteSlot) : Operation → List RemoteSlot
  | Operation.create tid st en =>
    state ++ [{ id := freshId state, task_id := tid, task_name := "",
                start := some st, stop := some en, duration := none }]
  | Operation.update i st en =>
    state.map (fun x => if x.id = i then { x with start := some st, stop := some en } else x)
  | Operation.delete i => state.filter (fun x => x.id ≠ i)

/-- Faithful application of a whole call sequence, first call first. -/
def applyOps (state : List RemoteSlot) (ops : List Operation) : List RemoteSlot :=
  ops.foldl applyOp state

/-- Duration of one project-time entry as `_consolidate_by_task`
(lines 971-1003) computes it: the API-supplied `duration.minutes` when
present, otherwise `int((end - start).total_seconds() / 60)` — with
instants in microseconds that is truncating division by `minuteUs`
(60000000); entries with missing start/end are skipped (`none`). -/
def entryDuration (e : RemoteSlot) : Option Int :=
  match e.duration with
  | some m => some m
  | none =>
    match e.start, e.stop with
    | some st, some en => some (Int.tdiv (en - st) minuteUs)
    | _, _ => none

/-- Append to a Python dict-of-lists (`task_entries` in
`_consolidate_by_task`): an existing key keeps its position and the value is
appended to its list. -/
def dictAppend (k : String) (v : RemoteSlot) :
    List (String × List RemoteSlot) → List (String × List RemoteSlot)
  | [] => [(k, [v])]
  | (k', vs) :: rest =>
    if k' = k then (k', vs ++ [v]) :: rest else (k', vs) :: dictAppend k v rest

/-- The grouping step of `_consolidate_by_task` (lines 918-939): group the
project times by task id in first-seen order, skipping missing ids. -/
def groupByTask (pts : List RemoteSlot) : List (String × List RemoteSlot) :=
  pts.foldl (fun m pt => if pt.task_id = "" then m else dictAppend pt.task_id pt m) []

/-- The per-task aggregation of `_consolidate_by_task` (lines 946-1020):
task details from the first entry, duration the sum over the parsable
entries. -/
def aggregateTask (tid : String) (entries : List RemoteSlot) : UIProjectTime :=
  { task_id := tid,
    task_name := ((entries.head?).map RemoteSlot.task_name).getD "",
    duration_minutes :=
      entries.foldl
        (fun acc e => match entryDuration e with
          | some d => acc + d
          | none => acc) 0,
    deleted := false }

/-- src/timr_utils.py, `ProjectTimeConsolidator._consolidate_by_task`:
aggregate the fetched project times into one `UIProjectTime` per task,
dropping zero-duration aggregates (lines 1022-1028). -/
def consolidate_by_task (pts : List RemoteSlot) : List UIProjectTime :=
  ((groupByTask pts).map (fun p => aggregateTask p.1 p.2)).filter
    (fun u => decide (0 < u.duration_minutes))

/-- src/timr_utils.py, `ProjectTimeConsolidator.update_ui_project_time`,
reified as the pair (mutating API calls issued, error raised).  The task
list is read back from the store (`get_ui_project_times`, a pure read), the
task to update is looked up; a missing task raises `ValueError` before any
mutating call, otherwise its duration is replaced (and its name when a
non-empty one is passed) and the differential update runs. -/
def update_ui_project_time (storeState : List RemoteSlot) (ws we : Int)
    (task_id : String) (duration_minutes : Int) (task_name : Option String) :
    List Operation × Option String :=
  let fetched := fetchProjectTimes ws we storeState
  let ui_project_times := consolidate_by_task fetched
  match ui_project_times.find? (fun pt => pt.task_id = task_id) with
  | none => ([], some ("Task with ID " ++ task_id ++ " not found in working time"))
  | some _ =>
    let updated := ui_project_times.map (fun pt =>
      if pt.task_id = task_id then
        { pt with duration_minutes := duration_minutes,
                  task_name := match task_name with
                    | some n => if n = "" then pt.task_name else n
                    | none => pt.task_name }
      else pt)
    (diffOps fetched ws we updated, none)

/-- The per-slot adjustment of `sanitize_project_times` (lines 754-774): a
start before the window start is clamped to the window start; if afterwards
start exceeds end, the end is forced to start plus 15 minutes. -/
def sanitizeAdjust (ws st en : Int) : Int × Int × Bool :=
  let clamped := if st < ws then (ws, true) else (st, false)
  if clamped.1 > en then (clamped.1, clamped.1 + 15 * minuteUs, true)
  else (clamped.1, en, clamped.2)

/-- The loop of `sanitize_project_times` (lines 736-786) over the fetched
project times: returns (update calls issued, resulting slot list); records
with missing start, end or id are skipped. -/
def sanitizeLoop (ws : Int) : List RemoteSlot → List Operation × List RemoteSlot
  | [] => ([], [])
  | pt :: rest =>
    let tail := sanitizeLoop ws rest
    match pt.start, pt.stop with
    | some st, some en =>
      let adj := sanitizeAdjust ws st en
      if adj.2.2 then
        (Operation.update pt.id adj.1 adj.2.1 :: tail.1,
         { pt with start := some adj.1, stop := some adj.2.1 } :: tail.2)
      else (tail.1, pt :: tail.2)
    | _, _ => tail

/-- src/timr_utils.py, `ProjectTimeConsolidator.sanitize_project_times`:
fetch the project times of the window and adjust the out-of-bounds ones
remotely.  Slots ending after the window end are not truncated. -/
def sanitize_project_times (ws we : Int) (storeState : List RemoteSlot) :
    List Operation × List RemoteSlot :=
  sanitizeLoop ws (fetchProjectTimes ws we storeState)

/-- The contiguity property claimed for the planner output: the first slot
starts at the window start and every later slot starts where the previous
one ends. -/
def contiguousFrom (c : Int) : List TimeSlot → Bool
  | [] => true
  | s :: rest => decide (s.start = c) && contiguousFrom s.stop rest

/-- The predicate "has a truthy task id" used throughout
`apply_differential_updates` (`if not task_id: continue`). -/
def hasTaskId (x : RemoteSlot) : Bool := decide (x.task_id ≠ "")

/-- The strict descending key order on tasks. -/
def taskStrictBefore (a b : UIProjectTime) : Prop :=
  keyLtb (keyOf b) (keyOf a) = true

/-- The net effect of the update call that step 2 of
`apply_differential_updates` issues for one `desired_by_task` entry, as a
function on a stored record. -/
def entryUpd (current_by_task : List (String × RemoteSlot))
    (p : String × TimeSlot) (x : RemoteSlot) : RemoteSlot :=
  match dictGet current_by_task p.1 with
  | some pt =>
    if needsUpdate pt p.2 then
      (if x.id = pt.id then
        { x with start := some p.2.start, stop := some p.2.stop } else x)
    else x
  | none => x

/-- The net effect on one stored record of all the update calls issued in
step 2, first entry first. -/
def applyEntryUpdates (current_by_task : List (String × RemoteSlot))
    (entries : List (String × TimeSlot)) (x : RemoteSlot) : RemoteSlot :=
  entries.foldl (fun y p => entryUpd current_by_task p y) x

/-- The observable slot content a later reconciliation run looks at: task
id, start and end. -/
def slotData (x : RemoteSlot) : String × Option Int × Option Int :=
  (x.task_id, x.start, x.stop)

/-- The net effect of one update call on the store. -/
def updById (i : Nat) (st en : Int) (x : RemoteSlot) : RemoteSlot :=
  if x.id = i then { x with start := some st, stop := some en } else x

/-- The de-duplicated current list of one reconciliation run. -/
def reconUnique (ws we : Int) (s₀ : List RemoteSlot) : List RemoteSlot :=
  (dedupLoop (fetchProjectTimes ws we s₀) []).1

/-- The duplicates collected by one reconciliation run. -/
def reconDups (ws we : Int) (s₀ : List RemoteSlot) : List RemoteSlot :=
  (dedupLoop (fetchProjectTimes ws we s₀) []).2

/-- `current_by_task` of one reconciliation run. -/
def reconCbt (ws we : Int) (s₀ : List RemoteSlot) : List (String × RemoteSlot) :=
  buildCurrentByTask (reconUnique ws we s₀)

/-- `desired_by_task` of one reconciliation run. -/
def reconDbt (ws we : Int) (tasks : List UIProjectTime) : List (String × TimeSlot) :=
  buildDesiredByTask (calculate_time_slots ws we tasks)

/-- The stale entries of `current_by_task` (task present remotely, absent
from the desired state), whose project times are deleted. -/
def reconStale (ws we : Int) (s₀ : List RemoteSlot) (tasks : List UIProjectTime) :
    List (String × RemoteSlot) :=
  (reconCbt ws we s₀).filter
    (fun p => (dictGet (reconDbt ws we tasks) p.1).isNone)

/-- The stored records that survive the delete phase of one run. -/
def reconSurvivors (ws we : Int) (s₀ : List RemoteSlot)
    (tasks : List UIProjectTime) : List RemoteSlot :=
  (s₀.filter (fun x =>
      decide (¬ x.id ∈ (reconDups ws we s₀).map RemoteSlot.id))).filter
    (fun x => decide (¬ x.id ∈ (reconStale ws we s₀ tasks).map (fun p => p.2.id)))

/-- The net effect of the update phase of one run on a stored record. -/
def reconUpd (ws we : Int) (s₀ : List RemoteSlot) (tasks : List UIProjectTime) :
    RemoteSlot → RemoteSlot :=
  applyEntryUpdates (reconCbt ws we s₀) (reconDbt ws we tasks)

/-! ## Theorems -/

theorem charlistLtb_irrefl : ∀ l : List Char, charlistLtb l l = false := by
  intro l
  induction l with
  | nil => rfl
  | cons a as ih => simp [charlistLtb, ih]

theorem charlistLtb_trans : ∀ l₁ l₂ l₃ : List Char,
    charlistLtb l₁ l₂ = true → charlistLtb l₂ l₃ = true →
    charlistLtb l₁ l₃ = true := by
  intro l₁
  induction l₁ with
  | nil =>
    intro l₂ l₃ h₁ h₂
    cases l₂ with
    | nil => cases h₁
    | cons b bs =>
      cases l₃ with
      | nil => cases h₂
      | cons c cs => rfl
  | cons a as ih =>
    intro l₂ l₃ h₁ h₂
    cases l₂ with
    | nil => cases h₁
    | cons b bs =>
      cases l₃ with
      | nil => cases h₂
      | cons c cs =>
        simp only [charlistLtb, charLtb] at h₁ h₂ ⊢
        by_cases hab : a = b
        · subst hab
          simp only [if_pos rfl] at h₁
          by_cases hbc : a = c
          · subst hbc
            simp only [if_pos rfl] at h₂ ⊢
            exact ih bs cs h₁ h₂
          · simp only [if_neg hbc] at h₂ ⊢
            exact h₂
        · simp only [if_neg hab] at h₁
          have hab' : a < b := of_decide_eq_true h₁
          by_cases hbc : b = c
          · have hac' : a < c := hbc ▸ hab'
            have hac : a ≠ c := ne_of_lt hac'
            simp only [if_neg hac]
            exact decide_eq_true hac'
          · simp only [if_neg hbc] at h₂
            have hbc' : b < c := of_decide_eq_true h₂
            have hac' : a < c := lt_trans hab' hbc'
            have hac : a ≠ c := ne_of_lt hac'
            simp only [if_neg hac]
            exact decide_eq_true hac'

theorem charlistLtb_eq_of_not_lt : ∀ l₁ l₂ : List Char,
    charlistLtb l₁ l₂ = false → charlistLtb l₂ l₁ = false → l₁ = l₂ := by
  intro l₁
  induction l₁ with
  | nil =>
    intro l₂ h₁ _
    cases l₂ with
    | nil => rfl
    | cons b bs => cases h₁
  | cons a as ih =>
    intro l₂ h₁ h₂
    cases l₂ with
    | nil => cases h₂
    | cons b bs =>
      simp only [charlistLtb, charLtb] at h₁ h₂
      by_cases hab : a = b
      · subst hab
        simp only [if_pos rfl] at h₁ h₂
        rw [ih bs h₁ h₂]
      · have hba : b ≠ a := fun h => hab h.symm
        simp only [if_neg hab] at h₁
        simp only [if_neg hba] at h₂
        have h₁' : ¬ a < b := of_decide_eq_false h₁
        have h₂' : ¬ b < a := of_decide_eq_false h₂
        exact absurd (le_antisymm (le_of_not_lt h₂') (le_of_not_lt h₁')) hab

theorem charlistLtb_asymm {l₁ l₂ : List Char}
    (h : charlistLtb l₁ l₂ = true) : charlistLtb l₂ l₁ = false := by
  by_contra hne
  have h' : charlistLtb l₂ l₁ = true := by
    cases hx : charlistLtb l₂ l₁ with
    | false => exact absurd hx hne
    | true => rfl
  have := charlistLtb_trans _ _ _ h h'
  rw [charlistLtb_irrefl] at this
  cases this

theorem strLtb_trans {a b c : String} (h₁ : strLtb a b = true)
    (h₂ : strLtb b c = true) : strLtb a c = true :=
  charlistLtb_trans _ _ _ h₁ h₂

theorem strLtb_eq_of_not_lt {a b : String} (h₁ : strLtb a b = false)
    (h₂ : strLtb b a = false) : a = b :=
  String.ext (charlistLtb_eq_of_not_lt _ _ h₁ h₂)

theorem strLtb_asymm {a b : String} (h : strLtb a b = true) :
    strLtb b a = false :=
  charlistLtb_asymm h

theorem strLtb_irrefl (a : String) : strLtb a a = false :=
  charlistLtb_irrefl _

theorem keyLtb_trans {a b c : String × String} (h₁ : keyLtb a b = true)
    (h₂ : keyLtb b c = true) : keyLtb a c = true := by
  unfold keyLtb at h₁ h₂ ⊢
  by_cases hab : a.1 = b.1
  · by_cases hbc : b.1 = c.1
    · have hac : a.1 = c.1 := hab.trans hbc
      simp only [if_pos hab] at h₁
      simp only [if_pos hbc] at h₂
      simp only [if_pos hac]
      exact strLtb_trans h₁ h₂
    · simp only [if_neg hbc] at h₂
      rw [hab]
      simp only [if_neg hbc]
      exact h₂
  · by_cases hbc : b.1 = c.1
    · simp only [if_neg hab] at h₁
      rw [← hbc]
      simp only [if_neg hab]
      exact h₁
    · simp only [if_neg hab] at h₁
      simp only [if_neg hbc] at h₂
      have hlt := strLtb_trans h₁ h₂
      have hac : a.1 ≠ c.1 := by
        intro h
        rw [h, strLtb_irrefl] at hlt
        cases hlt
      simp only [if_neg hac]
      exact hlt

theorem keyLtb_eq_of_not_lt {a b : String × String} (h₁ : keyLtb a b = false)
    (h₂ : keyLtb b a = false) : a = b := by
  unfold keyLtb at h₁ h₂
  by_cases hab : a.1 = b.1
  · have hba : b.1 = a.1 := hab.symm
    simp only [if_pos hab] at h₁
    simp only [if_pos hba] at h₂
    have h2 := strLtb_eq_of_not_lt h₁ h₂
    exact Prod.ext hab h2
  · have hba : b.1 ≠ a.1 := fun h => hab h.symm
    simp only [if_neg hab] at h₁
    simp only [if_neg hba] at h₂
    exact absurd (strLtb_eq_of_not_lt h₁ h₂) hab

theorem keyLtb_irrefl (a : String × String) : keyLtb a a = false := by
  unfold keyLtb
  simp [strLtb_irrefl]

theorem keyLtb_asymm {a b : String × String} (h : keyLtb a b = true) :
    keyLtb b a = false := by
  by_contra hne
  have h' : keyLtb b a = true := by
    cases hx : keyLtb b a with
    | false => exact absurd hx hne
    | true => rfl
  have hcirc := keyLtb_trans h h'
  rw [keyLtb_irrefl] at hcirc
  cases hcirc

theorem keyLeb_total (a b : String × String) :
    keyLeb a b = true ∨ keyLeb b a = true := by
  unfold keyLeb
  cases hab : keyLtb a b with
  | true => left; simp
  | false =>
    cases hba : keyLtb b a with
    | true => right; simp
    | false =>
      left
      have := keyLtb_eq_of_not_lt hab hba
      simp [this]

theorem keyLeb_trans {a b c : String × String} (h₁ : keyLeb a b = true)
    (h₂ : keyLeb b c = true) : keyLeb a c = true := by
  unfold keyLeb at h₁ h₂ ⊢
  rcases Bool.or_eq_true_iff.mp h₁ with h₁ | h₁ <;>
    rcases Bool.or_eq_true_iff.mp h₂ with h₂ | h₂
  · exact Bool.or_eq_true_iff.mpr (Or.inl (keyLtb_trans h₁ h₂))
  · have : b = c := of_decide_eq_true h₂
    subst this
    exact Bool.or_eq_true_iff.mpr (Or.inl h₁)
  · have : a = b := of_decide_eq_true h₁
    subst this
    exact Bool.or_eq_true_iff.mpr (Or.inl h₂)
  · have : a = b := of_decide_eq_true h₁
    subst this
    exact Bool.or_eq_true_iff.mpr (Or.inr h₂)

theorem keyLeb_antisymm_of_ne {a b : String × String}
    (h₁ : keyLeb a b = true) (h₂ : keyLeb b a = true) : a = b := by
  unfold keyLeb at h₁ h₂
  rcases Bool.or_eq_true_iff.mp h₁ with h₁ | h₁
  · rcases Bool.or_eq_true_iff.mp h₂ with h₂ | h₂
    · rw [keyLtb_asymm h₁] at h₂; cases h₂
    · exact (of_decide_eq_true h₂).symm
  · exact of_decide_eq_true h₁

theorem dictGet_mem {α : Type} {m : List (String × α)} {k : String} {v : α}
    (h : dictGet m k = some v) : (k, v) ∈ m := by
  induction m with
  | nil => cases h
  | cons q rest ih =>
    obtain ⟨k', v'⟩ := q
    rw [dictGet] at h
    by_cases hk : k' = k
    · rw [if_pos hk] at h
      subst hk
      cases h
      exact List.mem_cons_self _ _
    · rw [if_neg hk] at h
      exact List.mem_cons_of_mem _ (ih h)

theorem mem_dictGet {α : Type} {m : List (String × α)} {k : String} {v : α}
    (hnd : (m.map Prod.fst).Nodup) (h : (k, v) ∈ m) : dictGet m k = some v := by
  induction m with
  | nil => cases h
  | cons q rest ih =>
    obtain ⟨k', v'⟩ := q
    rw [List.map_cons, List.nodup_cons] at hnd
    rcases List.mem_cons.mp h with h | h
    · cases h
      rw [dictGet, if_pos rfl]
    · have hk : k' ≠ k := by
        intro he
        subst he
        exact hnd.1 (List.mem_map.mpr ⟨(k', v), h, rfl⟩)
      rw [dictGet, if_neg hk]
      exact ih hnd.2 h

theorem dictGet_none_iff {α : Type} {m : List (String × α)} {k : String} :
    dictGet m k = none ↔ k ∉ m.map Prod.fst := by
  induction m with
  | nil => simp [dictGet]
  | cons q rest ih =>
    obtain ⟨k', v'⟩ := q
    rw [dictGet]
    by_cases hk : k' = k
    · subst hk
      simp
    · rw [if_neg hk]
      simp only [List.map_cons, List.mem_cons]
      constructor
      · intro h hmem
        rcases hmem with hmem | hmem
        · exact hk hmem.symm
        · exact (ih.mp h) hmem
      · intro h
        exact ih.mpr (fun hmem => h (Or.inr hmem))

theorem dictGet_isSome_of_mem_keys {α : Type} {m : List (String × α)}
    {k : String} (h : k ∈ m.map Prod.fst) : (dictGet m k).isSome := by
  cases hg : dictGet m k with
  | none => exact absurd h (dictGet_none_iff.mp hg)
  | some v => rfl

theorem dictInsert_mem {α : Type} {m : List (String × α)} {k : String} {v : α}
    {q : String × α} (h : q ∈ dictInsert k v m) : q = (k, v) ∨ q ∈ m := by
  induction m with
  | nil =>
    rw [dictInsert] at h
    rcases List.mem_cons.mp h with h | h
    · exact Or.inl h
    · cases h
  | cons p rest ih =>
    obtain ⟨k', v'⟩ := p
    rw [dictInsert] at h
    by_cases hk : k' = k
    · rw [if_pos hk] at h
      subst hk
      rcases List.mem_cons.mp h with h | h
      · exact Or.inl h
      · exact Or.inr (List.mem_cons_of_mem _ h)
    · rw [if_neg hk] at h
      rcases List.mem_cons.mp h with h | h
      · exact Or.inr (List.mem_cons.mpr (Or.inl h))
      · rcases ih h with h | h
        · exact Or.inl h
        · exact Or.inr (List.mem_cons_of_mem _ h)

theorem dictInsert_keys {α : Type} (m : List (String × α)) (k : String) (v : α) :
    (dictInsert k v m).map Prod.fst =
      if k ∈ m.map Prod.fst then m.map Prod.fst else m.map Prod.fst ++ [k] := by
  induction m with
  | nil => simp [dictInsert]
  | cons p rest ih =>
    obtain ⟨k', v'⟩ := p
    rw [dictInsert]
    by_cases hk : k' = k
    · subst hk
      simp
    · rw [if_neg hk, List.map_cons, List.map_cons, ih]
      by_cases hmem : k ∈ rest.map Prod.fst
      · rw [if_pos hmem, if_pos]
        simp only [List.mem_cons]
        exact Or.inr hmem
      · rw [if_neg hmem, if_neg]
        · simp
        · simp only [List.mem_cons]
          intro hc
          rcases hc with hc | hc
          · exact hk hc.symm
          · exact hmem hc

theorem dictInsert_keys_nodup {α : Type} {m : List (String × α)} {k : String}
    {v : α} (h : (m.map Prod.fst).Nodup) :
    ((dictInsert k v m).map Prod.fst).Nodup := by
  rw [dictInsert_keys]
  by_cases hk : k ∈ m.map Prod.fst
  · rw [if_pos hk]; exact h
  · rw [if_neg hk]
    simp only [List.nodup_append, List.nodup_cons]
    refine ⟨h, ?_, ?_⟩
    · simp
    · simp only [List.disjoint_singleton]
      simpa using hk

theorem dictInsert_keys_sub {α : Type} {m : List (String × α)} {k₂ : String}
    (k : String) (v : α) (h : k₂ ∈ m.map Prod.fst) :
    k₂ ∈ (dictInsert k v m).map Prod.fst := by
  rw [dictInsert_keys]
  by_cases hk : k ∈ m.map Prod.fst
  · rw [if_pos hk]; exact h
  · rw [if_neg hk]; exact List.mem_append_left _ h

theorem dictInsert_key_self {α : Type} (m : List (String × α)) (k : String)
    (v : α) : k ∈ (dictInsert k v m).map Prod.fst := by
  rw [dictInsert_keys]
  by_cases hk : k ∈ m.map Prod.fst
  · rw [if_pos hk]; exact hk
  · rw [if_neg hk]
    exact List.mem_append_right _ (List.mem_singleton.mpr rfl)

theorem dictInsert_of_not_mem {α : Type} {m : List (String × α)} {k : String}
    (v : α) (h : k ∉ m.map Prod.fst) : dictInsert k v m = m ++ [(k, v)] := by
  induction m with
  | nil => rfl
  | cons p rest ih =>
    obtain ⟨k', v'⟩ := p
    simp only [List.map_cons, List.mem_cons] at h
    push_neg at h
    rw [dictInsert, if_neg (fun he => h.1 he.symm), List.cons_append,
      ih h.2]

theorem dbtFold_keys_nodup : ∀ (l : List TimeSlot) (m : List (String × TimeSlot)),
    (m.map Prod.fst).Nodup →
    ((l.foldl (fun m s => dictInsert s.task_id s m) m).map Prod.fst).Nodup := by
  intro l
  induction l with
  | nil => intro m h; exact h
  | cons s rest ih =>
    intro m h
    exact ih _ (dictInsert_keys_nodup h)

theorem dbt_keys_nodup (slots : List TimeSlot) :
    ((buildDesiredByTask slots).map Prod.fst).Nodup :=
  dbtFold_keys_nodup slots [] List.nodup_nil

theorem dbtFold_mem : ∀ (l : List TimeSlot) (m : List (String × TimeSlot))
    (q : String × TimeSlot), q ∈ l.foldl (fun m s => dictInsert s.task_id s m) m →
    q ∈ m ∨ (q.2 ∈ l ∧ q.2.task_id = q.1) := by
  intro l
  induction l with
  | nil => intro m q h; exact Or.inl h
  | cons s rest ih =>
    intro m q h
    rw [List.foldl_cons] at h
    rcases ih _ _ h with h | h
    · rcases dictInsert_mem h with h | h
      · subst h
        exact Or.inr ⟨List.mem_cons_self _ _, rfl⟩
      · exact Or.inl h
    · exact Or.inr ⟨List.mem_cons_of_mem _ h.1, h.2⟩

theorem dbt_mem {slots : List TimeSlot} {q : String × TimeSlot}
    (h : q ∈ buildDesiredByTask slots) : q.2 ∈ slots ∧ q.2.task_id = q.1 := by
  rcases dbtFold_mem slots [] q h with h | h
  · cases h
  · exact h

theorem dbtFold_keys_mono : ∀ (l : List TimeSlot) (m : List (String × TimeSlot))
    (k : String), k ∈ m.map Prod.fst →
    k ∈ (l.foldl (fun m s => dictInsert s.task_id s m) m).map Prod.fst := by
  intro l
  induction l with
  | nil => intro m k h; exact h
  | cons s rest ih =>
    intro m k h
    exact ih _ k (dictInsert_keys_sub _ _ h)

theorem dbt_key_of_mem : ∀ (slots : List TimeSlot)
    (m : List (String × TimeSlot)) (s : TimeSlot), s ∈ slots →
    s.task_id ∈ (slots.foldl (fun m s => dictInsert s.task_id s m) m).map Prod.fst := by
  intro slots
  induction slots with
  | nil => intro m s h; cases h
  | cons t rest ih =>
    intro m s h
    rcases List.mem_cons.mp h with h | h
    · subst h
      rw [List.foldl_cons]
      exact dbtFold_keys_mono rest _ _ (dictInsert_key_self m _ _)
    · exact ih _ s h

theorem cbtFold_clean : ∀ (u : List RemoteSlot) (m : List (String × RemoteSlot)),
    (∀ x ∈ u, x.task_id ≠ "") → (∀ x ∈ u, x.task_id ∉ m.map Prod.fst) →
    ((u.map RemoteSlot.task_id).Nodup) →
    u.foldl (fun m pt => if pt.task_id = "" then m else dictInsert pt.task_id pt m) m =
      m ++ u.map (fun x => (x.task_id, x)) := by
  intro u
  induction u with
  | nil => intro m _ _ _; simp
  | cons x rest ih =>
    intro m hne hnm hnd
    have hx : x.task_id ≠ "" := hne x (List.mem_cons_self _ _)
    rw [List.map_cons, List.nodup_cons] at hnd
    rw [List.foldl_cons, if_neg hx,
      dictInsert_of_not_mem x (hnm x (List.mem_cons_self _ _)),
      ih (m ++ [(x.task_id, x)])
        (fun y hy => hne y (List.mem_cons_of_mem _ hy))
        (fun y hy => by
          simp only [List.map_append, List.mem_append, List.map_cons]
          intro hc
          rcases hc with hc | hc
          · exact hnm y (List.mem_cons_of_mem _ hy) hc
          · simp only [List.map_nil, List.mem_cons, List.not_mem_nil, or_false] at hc
            exact hnd.1 (hc ▸ List.mem_map.mpr ⟨y, hy, rfl⟩))
        hnd.2]
    simp

theorem cbt_eq_map {u : List RemoteSlot} (hne : ∀ x ∈ u, x.task_id ≠ "")
    (hnd : (u.map RemoteSlot.task_id).Nodup) :
    buildCurrentByTask u = u.map (fun x => (x.task_id, x)) := by
  unfold buildCurrentByTask
  rw [cbtFold_clean u [] hne (by intro x _; simp) hnd]
  simp

theorem mapGet_some : ∀ (u : List RemoteSlot) (k : String) (pt : RemoteSlot),
    dictGet (u.map (fun x => (x.task_id, x))) k = some pt →
    pt ∈ u ∧ pt.task_id = k := by
  intro u
  induction u with
  | nil => intro k pt h; cases h
  | cons x rest ih =>
    intro k pt h
    rw [List.map_cons, dictGet] at h
    by_cases hk : x.task_id = k
    · rw [if_pos hk] at h
      cases h
      exact ⟨List.mem_cons_self _ _, hk⟩
    · rw [if_neg hk] at h
      obtain ⟨h1, h2⟩ := ih k pt h
      exact ⟨List.mem_cons_of_mem _ h1, h2⟩

theorem map_keys_eq (u : List RemoteSlot) :
    (u.map (fun x => (x.task_id, x))).map Prod.fst = u.map RemoteSlot.task_id := by
  rw [List.map_map]
  rfl

theorem mapGet_of_mem {u : List RemoteSlot} {pt : RemoteSlot} (h : pt ∈ u)
    (hnd : (u.map RemoteSlot.task_id).Nodup) :
    dictGet (u.map (fun x => (x.task_id, x))) pt.task_id = some pt := by
  apply mem_dictGet
  · rw [map_keys_eq]; exact hnd
  · exact List.mem_map.mpr ⟨pt, h, rfl⟩

theorem dedup_unique_mem : ∀ (l : List RemoteSlot) (seen : List String)
    (x : RemoteSlot), x ∈ (dedupLoop l seen).1 →
    x ∈ l ∧ x.task_id ≠ "" ∧ x.task_id ∉ seen := by
  intro l
  induction l with
  | nil => intro seen x h; cases h
  | cons pt rest ih =>
    intro seen x h
    rw [dedupLoop] at h
    by_cases h0 : pt.task_id = ""
    · rw [if_pos h0] at h
      obtain ⟨h1, h2, h3⟩ := ih seen x h
      exact ⟨List.mem_cons_of_mem _ h1, h2, h3⟩
    · rw [if_neg h0] at h
      by_cases hs : pt.task_id ∈ seen
      · rw [if_pos hs] at h
        obtain ⟨h1, h2, h3⟩ := ih seen x h
        exact ⟨List.mem_cons_of_mem _ h1, h2, h3⟩
      · rw [if_neg hs] at h
        rcases List.mem_cons.mp h with h | h
        · subst h
          exact ⟨List.mem_cons_self _ _, h0, hs⟩
        · obtain ⟨h1, h2, h3⟩ := ih _ x h
          refine ⟨List.mem_cons_of_mem _ h1, h2, fun hc => h3 ?_⟩
          exact List.mem_cons_of_mem _ hc

theorem dedup_dup_mem : ∀ (l : List RemoteSlot) (seen : List String)
    (x : RemoteSlot), x ∈ (dedupLoop l seen).2 → x ∈ l := by
  intro l
  induction l with
  | nil => intro seen x h; cases h
  | cons pt rest ih =>
    intro seen x h
    rw [dedupLoop] at h
    by_cases h0 : pt.task_id = ""
    · rw [if_pos h0] at h
      exact List.mem_cons_of_mem _ (ih seen x h)
    · rw [if_neg h0] at h
      by_cases hs : pt.task_id ∈ seen
      · rw [if_pos hs] at h
        rcases List.mem_cons.mp h with h | h
        · subst h; exact List.mem_cons_self _ _
        · exact List.mem_cons_of_mem _ (ih seen x h)
      · rw [if_neg hs] at h
        exact List.mem_cons_of_mem _ (ih _ x h)

theorem dedup_unique_tids_nodup : ∀ (l : List RemoteSlot) (seen : List String),
    ((dedupLoop l seen).1.map RemoteSlot.task_id).Nodup := by
  intro l
  induction l with
  | nil => intro seen; simp [dedupLoop]
  | cons pt rest ih =>
    intro seen
    rw [dedupLoop]
    by_cases h0 : pt.task_id = ""
    · rw [if_pos h0]; exact ih seen
    · rw [if_neg h0]
      by_cases hs : pt.task_id ∈ seen
      · rw [if_pos hs]; exact ih seen
      · rw [if_neg hs]
        simp only [List.map_cons, List.nodup_cons]
        refine ⟨?_, ih _⟩
        intro hc
        obtain ⟨y, hy, hyt⟩ := List.mem_map.mp hc
        obtain ⟨_, _, h3⟩ := dedup_unique_mem rest _ y hy
        exact h3 (hyt ▸ List.mem_cons_self _ _)

theorem dedup_tid_covered : ∀ (l : List RemoteSlot) (seen : List String)
    (x : RemoteSlot), x ∈ l → x.task_id ≠ "" →
    x.task_id ∈ seen ∨ x.task_id ∈ (dedupLoop l seen).1.map RemoteSlot.task_id := by
  intro l
  induction l with
  | nil => intro seen x h; cases h
  | cons pt rest ih =>
    intro seen x hmem hne
    rw [dedupLoop]
    rcases List.mem_cons.mp hmem with h | h
    · subst h
      rw [if_neg hne]
      by_cases hs : x.task_id ∈ seen
      · exact Or.inl hs
      · rw [if_neg hs]
        right
        simp
    · by_cases h0 : pt.task_id = ""
      · rw [if_pos h0]
        exact ih seen x h hne
      · rw [if_neg h0]
        by_cases hs : pt.task_id ∈ seen
        · rw [if_pos hs]
          exact ih seen x h hne
        · rw [if_neg hs]
          rcases ih (pt.task_id :: seen) x h hne with hc | hc
          · rcases List.mem_cons.mp hc with hc | hc
            · right
              simp only [List.map_cons, List.mem_cons]
              exact Or.inl hc
            · exact Or.inl hc
          · right
            simp only [List.map_cons, List.mem_cons]
            exact Or.inr hc

theorem dedup_partition : ∀ (l : List RemoteSlot) (seen : List String)
    (x : RemoteSlot), x ∈ l →
    x ∈ (dedupLoop l seen).1 ∨ x ∈ (dedupLoop l seen).2 ∨ x.task_id = "" := by
  intro l
  induction l with
  | nil => intro seen x h; cases h
  | cons pt rest ih =>
    intro seen x hmem
    rw [dedupLoop]
    by_cases h0 : pt.task_id = ""
    · rw [if_pos h0]
      rcases List.mem_cons.mp hmem with h | h
      · subst h; exact Or.inr (Or.inr h0)
      · exact ih seen x h
    · rw [if_neg h0]
      by_cases hs : pt.task_id ∈ seen
      · rw [if_pos hs]
        rcases List.mem_cons.mp hmem with h | h
        · subst h
          exact Or.inr (Or.inl (List.mem_cons_self _ _))
        · rcases ih seen x h with h | h | h
          · exact Or.inl h
          · exact Or.inr (Or.inl (List.mem_cons_of_mem _ h))
          · exact Or.inr (Or.inr h)
      · rw [if_neg hs]
        rcases List.mem_cons.mp hmem with h | h
        · subst h
          exact Or.inl (List.mem_cons_self _ _)
        · rcases ih (pt.task_id :: seen) x h with h | h | h
          · exact Or.inl (List.mem_cons_of_mem _ h)
          · exact Or.inr (Or.inl h)
          · exact Or.inr (Or.inr h)

theorem dedup_unique_not_dup : ∀ (l : List RemoteSlot) (seen : List String),
    l.Nodup → ∀ x, x ∈ (dedupLoop l seen).1 → x ∉ (dedupLoop l seen).2 := by
  intro l
  induction l with
  | nil => intro seen _ x h; cases h
  | cons pt rest ih =>
    intro seen hnd x hu hd
    rw [List.nodup_cons] at hnd
    rw [dedupLoop] at hu hd
    by_cases h0 : pt.task_id = ""
    · rw [if_pos h0] at hu hd
      exact ih seen hnd.2 x hu hd
    · rw [if_neg h0] at hu hd
      by_cases hs : pt.task_id ∈ seen
      · rw [if_pos hs] at hu hd
        rcases List.mem_cons.mp hd with hd | hd
        · subst hd
          exact hnd.1 (dedup_unique_mem rest seen x hu).1
        · exact ih seen hnd.2 x hu hd
      · rw [if_neg hs] at hu hd
        rcases List.mem_cons.mp hu with hu | hu
        · subst hu
          exact hnd.1 (dedup_dup_mem rest _ x hd)
        · exact ih _ hnd.2 x hu hd

theorem dedup_clean : ∀ (l : List RemoteSlot) (seen : List String),
    ((l.filter hasTaskId).map RemoteSlot.task_id).Nodup →
    (∀ x ∈ l, x.task_id = "" ∨ x.task_id ∉ seen) →
    dedupLoop l seen = (l.filter hasTaskId, []) := by
  intro l
  induction l with
  | nil => intro seen _ _; rfl
  | cons pt rest ih =>
    intro seen hnd hdisj
    rw [dedupLoop]
    by_cases h0 : pt.task_id = ""
    · rw [if_pos h0]
      have hf : hasTaskId pt = false := by
        unfold hasTaskId
        simp [h0]
      rw [List.filter_cons_of_neg (by simp [hf])] at hnd ⊢
      exact ih seen hnd (fun x hx => hdisj x (List.mem_cons_of_mem _ hx))
    · have hf : hasTaskId pt = true := by
        unfold hasTaskId
        simp [h0]
      rw [if_neg h0]
      have hs : pt.task_id ∉ seen := by
        rcases hdisj pt (List.mem_cons_self _ _) with h | h
        · exact absurd h h0
        · exact h
      rw [if_neg hs]
      rw [List.filter_cons_of_pos hf] at hnd ⊢
      rw [List.map_cons, List.nodup_cons] at hnd
      rw [ih (pt.task_id :: seen) hnd.2]
      · intro x hx
        by_cases hx0 : x.task_id = ""
        · exact Or.inl hx0
        · right
          intro hc
          rcases List.mem_cons.mp hc with hc | hc
          · apply hnd.1
            rw [← hc]
            apply List.mem_map.mpr
            refine ⟨x, List.mem_filter.mpr ⟨hx, ?_⟩, rfl⟩
            unfold hasTaskId
            simp [hx0]
          · rcases hdisj x (List.mem_cons_of_mem _ hx) with h | h
            · exact hx0 h
            · exact h hc

theorem id_inj {l : List RemoteSlot} (hnd : (l.map RemoteSlot.id).Nodup)
    {x y : RemoteSlot} (hx : x ∈ l) (hy : y ∈ l) (h : x.id = y.id) : x = y :=
  List.inj_on_of_nodup_map hnd hx hy h

theorem sortedTasks_perm (tasks : List UIProjectTime) :
    (sortedTasks tasks).Perm (tasks.filter keepTask) :=
  List.perm_insertionSort taskBefore _

theorem sortedTasks_sorted (tasks : List UIProjectTime) :
    List.Sorted taskBefore (sortedTasks tasks) := by
  haveI : IsTotal UIProjectTime taskBefore :=
    ⟨fun a b => by unfold taskBefore; exact keyLeb_total (keyOf b) (keyOf a)⟩
  haveI : IsTrans UIProjectTime taskBefore :=
    ⟨fun a b c h₁ h₂ => by
      unfold taskBefore at h₁ h₂ ⊢
      exact keyLeb_trans h₂ h₁⟩
  exact List.sorted_insertionSort taskBefore _

theorem mem_sortedTasks {tasks : List UIProjectTime} {t : UIProjectTime}
    (h : t ∈ sortedTasks tasks) : t ∈ tasks ∧ keepTask t = true := by
  have := (sortedTasks_perm tasks).mem_iff.mp h
  exact List.mem_filter.mp this

theorem slotLoop_mem {we : Int} : ∀ (l : List UIProjectTime) (cursor : Int)
    (sl : TimeSlot), sl ∈ slotLoop we l cursor →
    sl.stop - sl.start = sl.duration_minutes * minuteUs ∧
    ∃ t ∈ l, sl.task_id = t.task_id ∧ sl.duration_minutes = t.duration_minutes := by
  intro l
  induction l with
  | nil => intro cursor sl h; cases h
  | cons t rest ih =>
    intro cursor sl h
    rw [slotLoop] at h
    rcases List.mem_cons.mp h with h | h
    · subst h
      constructor
      · simp
      · exact ⟨t, List.mem_cons_self _ _, rfl, rfl⟩
    · obtain ⟨h1, t', ht', h2, h3⟩ := ih _ sl h
      exact ⟨h1, t', List.mem_cons_of_mem _ ht', h2, h3⟩

theorem slotLoop_visible (ws we : Int) : ∀ (l : List UIProjectTime) (cursor : Int),
    min ws we ≤ cursor → (∀ t ∈ l, 0 < t.duration_minutes) →
    ∀ sl ∈ slotLoop we l cursor,
    (ws ≤ sl.start ∧ sl.start < we) ∨ (ws < sl.stop ∧ sl.stop ≤ we) ∨
      (sl.start ≤ ws ∧ we ≤ sl.stop) := by
  intro l
  induction l with
  | nil => intro cursor _ _ sl h; cases h
  | cons t rest ih =>
    intro cursor hcur hpos sl hmem
    have hd : 0 < t.duration_minutes := hpos t (List.mem_cons_self _ _)
    have hdmin : minuteUs ≤ t.duration_minutes * minuteUs := by
      have h1 : (1 : Int) ≤ t.duration_minutes := hd
      calc minuteUs = 1 * minuteUs := (one_mul _).symm
        _ ≤ t.duration_minutes * minuteUs := by
          apply mul_le_mul_of_nonneg_right h1
          norm_num [minuteUs]
    have hstep : min ws we ≤ min cursor (we - minuteUs) + minuteUs := by
      rcases min_cases cursor (we - minuteUs) with ⟨he, _⟩ | ⟨he, _⟩
      · rw [he]
        refine le_trans hcur ?_
        have : (0 : Int) ≤ minuteUs := by norm_num [minuteUs]
        linarith
      · rw [he]
        have : we - minuteUs + minuteUs = we := by ring
        rw [this]
        exact min_le_right _ _
    rw [slotLoop] at hmem
    rcases List.mem_cons.mp hmem with h | h
    · subst h
      simp only
      set st := min cursor (we - minuteUs) with hst
      by_cases hws : ws ≤ st
      · left
        refine ⟨hws, ?_⟩
        have h1 : st ≤ we - minuteUs := min_le_right _ _
        have : (0 : Int) < minuteUs := by norm_num [minuteUs]
        linarith
      · push_neg at hws
        rcases min_cases cursor (we - minuteUs) with ⟨he, hle⟩ | ⟨he, hle⟩
        · exfalso
          rw [← hst] at he
          rcases le_or_lt ws we with hwe | hwe
          · rw [min_eq_left hwe] at hcur
            rw [he] at hws
            exact absurd hcur (not_le.mpr hws)
          · rw [min_eq_right (le_of_lt hwe)] at hcur
            rw [he] at hws
            have : (0 : Int) < minuteUs := by norm_num [minuteUs]
            linarith
        · right; right
          rw [← hst] at he
          refine ⟨le_of_lt hws, ?_⟩
          rw [he]
          linarith
    · apply ih _ _ (fun u hu => hpos u (List.mem_cons_of_mem _ hu)) sl h
      calc min ws we ≤ min cursor (we - minuteUs) + minuteUs := hstep
        _ ≤ min cursor (we - minuteUs) + t.duration_minutes * minuteUs := by
            linarith
        _ = _ := rfl

theorem slotLoop_chain (we : Int) : ∀ (l : List UIProjectTime) (cursor : Int),
    cursor ≤ we - minuteUs →
    (∀ sl ∈ (slotLoop we l cursor).dropLast, sl.stop ≤ we - minuteUs) →
    contiguousFrom cursor (slotLoop we l cursor) = true := by
  intro l
  induction l with
  | nil => intro cursor _ _; rfl
  | cons t rest ih =>
    intro cursor hcur hdrop
    rw [slotLoop]
    rw [contiguousFrom]
    simp only
    rw [min_eq_left hcur]
    rw [decide_eq_true rfl, Bool.true_and]
    cases hr : rest with
    | nil =>
      rw [slotLoop]
      rfl
    | cons u us =>
      rw [← hr]
      apply ih
      · have hne : slotLoop we rest (cursor + t.duration_minutes * minuteUs) ≠ [] := by
          rw [hr, slotLoop]
          exact List.cons_ne_nil _ _
        have hhead := hdrop
          { task_id := t.task_id, start := cursor,
            stop := cursor + t.duration_minutes * minuteUs,
            duration_minutes := t.duration_minutes }
        rw [slotLoop] at hhead
        simp only [min_eq_left hcur] at hhead
        rw [List.dropLast_cons_of_ne_nil hne] at hhead
        exact hhead (List.mem_cons_self _ _)
      · intro sl hsl
        apply hdrop
        rw [slotLoop]
        simp only [min_eq_left hcur]
        have hne : slotLoop we rest (cursor + t.duration_minutes * minuteUs) ≠ [] := by
          rw [hr, slotLoop]
          exact List.cons_ne_nil _ _
        rw [List.dropLast_cons_of_ne_nil hne]
        exact List.mem_cons_of_mem _ hsl

/-- C2: Duration conservation in the planner: every time slot emitted by
`_calculate_time_slots` satisfies `end - start = duration_minutes` exactly
(in microseconds, `stop - start = duration_minutes * minuteUs`), regardless
of the window, and its duration is the `duration_minutes` of its task. -/
theorem C2_duration_conservation (ws we : Int) (tasks : List UIProjectTime)
    (sl : TimeSlot) (hsl : sl ∈ calculate_time_slots ws we tasks) :
    sl.stop - sl.start = sl.duration_minutes * minuteUs ∧
    ∃ t ∈ tasks, sl.task_id = t.task_id ∧
      sl.duration_minutes = t.duration_minutes := by
  unfold calculate_time_slots at hsl
  obtain ⟨h1, t, ht, h2, h3⟩ := slotLoop_mem _ _ sl hsl
  exact ⟨h1, t, (mem_sortedTasks ht).1, h2, h3⟩

/-- Witness for C2 at a concrete input: a 30-minute task in a one-hour
window gets the slot `[0, 30min)`, and the theorem applies. -/
theorem C2_witness :
    (⟨"t1", 0, 1800000000, 30⟩ : TimeSlot) ∈
      calculate_time_slots 0 3600000000
        [{ task_id := "t1", task_name := "A", duration_minutes := 30,
           deleted := false }] ∧
    ((1800000000 : Int) - 0 = 30 * minuteUs ∧
      ∃ t ∈ [({ task_id := "t1", task_name := "A", duration_minutes := 30,
                deleted := false } : UIProjectTime)],
        ("t1" : String) = t.task_id ∧ (30 : Int) = t.duration_minutes) :=
  ⟨by decide, C2_duration_conservation 0 3600000000
    [{ task_id := "t1", task_name := "A", duration_minutes := 30,
       deleted := false }] ⟨"t1", 0, 1800000000, 30⟩ (by decide)⟩

/-- C3 counterexample: with a one-hour window and tasks of 120 and 60
minutes, the first slot overflows the window, so the second slot is clamped
to start at `window.end - 1 minute` instead of at the first slot's end: the
layout is not contiguous even though only the final slot was allowed to
exceed the window. -/
theorem C3_counterexample :
    contiguousFrom 0 (calculate_time_slots 0 3600000000
      [{ task_id := "t2", task_name := "b", duration_minutes := 120,
         deleted := false },
       { task_id := "t1", task_name := "a", duration_minutes := 60,
         deleted := false }]) = false := by decide

/-- C3 (amended): the layout is contiguous from the window start — the
first slot starts at `window.start` and every slot starts at the previous
slot's end — provided the window is at least one minute long and no slot
other than possibly the last one ends later than `window.end - 1 minute`
(otherwise the `min(cursor, window.end - 1 minute)` clamp of the source
breaks the chain). -/
theorem C3_contiguous_layout (ws we : Int) (tasks : List UIProjectTime)
    (h1 : ws + minuteUs ≤ we)
    (h2 : ∀ sl ∈ (calculate_time_slots ws we tasks).dropLast,
      sl.stop ≤ we - minuteUs) :
    contiguousFrom ws (calculate_time_slots ws we tasks) = true := by
  unfold calculate_time_slots at h2 ⊢
  exact slotLoop_chain we _ ws (by linarith) h2

/-- Witness for C3 at a concrete input: two one-hour tasks in a three-hour
window are laid out back to back from the window start. -/
theorem C3_witness :
    ((0 : Int) + minuteUs ≤ 10800000000 ∧
      ∀ sl ∈ (calculate_time_slots 0 10800000000
        [{ task_id := "t1", task_name := "a", duration_minutes := 60,
           deleted := false },
         { task_id := "t2", task_name := "b", duration_minutes := 60,
           deleted := false }]).dropLast, sl.stop ≤ 10800000000 - minuteUs) ∧
    contiguousFrom 0 (calculate_time_slots 0 10800000000
      [{ task_id := "t1", task_name := "a", duration_minutes := 60,
         deleted := false },
       { task_id := "t2", task_name := "b", duration_minutes := 60,
         deleted := false }]) = true :=
  ⟨⟨by decide, by decide⟩,
    C3_contiguous_layout 0 10800000000 _ (by decide) (by decide)⟩

theorem update_mem_diffOps_inv {current : List RemoteSlot} {ws we : Int}
    {tasks : List UIProjectTime} {i : Nat} {st en : Int}
    (h : Operation.update i st en ∈ diffOps current ws we tasks) :
    ∃ p ∈ buildDesiredByTask (calculate_time_slots ws we tasks),
      ∃ pt₂ : RemoteSlot,
        dictGet (buildCurrentByTask (dedupLoop current []).1) p.1 = some pt₂ ∧
        pt₂.id = i ∧ needsUpdate pt₂ p.2 = true ∧
        st = p.2.start ∧ en = p.2.stop := by
  unfold diffOps at h
  simp only at h
  rcases List.mem_append.mp h with h | h
  · rcases List.mem_append.mp h with h | h
    · obtain ⟨dup, _, heq⟩ := List.mem_map.mp h
      cases heq
    · obtain ⟨p, _, heq⟩ := List.mem_map.mp h
      cases heq
  · obtain ⟨p, hp, hop⟩ := List.mem_flatMap.mp h
    refine ⟨p, hp, ?_⟩
    unfold upsertOpsFor at hop
    cases hg : dictGet (buildCurrentByTask (dedupLoop current []).1) p.1 with
    | none =>
      rw [hg] at hop
      rcases List.mem_singleton.mp hop with heq
      cases heq
    | some pt₂ =>
      rw [hg] at hop
      have hop' : Operation.update i st en ∈
          (if needsUpdate pt₂ p.2 = true
            then [Operation.update pt₂.id p.2.start p.2.stop] else []) := hop
      by_cases hnu : needsUpdate pt₂ p.2 = true
      · rw [if_pos hnu] at hop'
        rcases List.mem_singleton.mp hop' with heq
        injection heq with e1 e2 e3
        exact ⟨pt₂, rfl, e1.symm, hnu, e2, e3⟩
      · rw [if_neg hnu] at hop'
        cases hop'

/-- C4: Update tolerance boundary.  For an existing de-duplicated current
project time `pt` whose task `k` is also in the desired map with slot `v`:
(1) `_project_time_needs_update` is true exactly when the current start or
end differs from the desired one by strictly more than one second
(1000000 microseconds); (2) the reconciliation issues an update call for
`pt` if and only if that comparison says so; (3) when it does not, no update
for `pt` is issued at all; (4)/(5) a current slot whose start differs by
exactly 1.0 second from the desired one (ends equal) is not updated, while a
difference of 1.01 seconds is. -/
theorem C4_update_tolerance (current : List RemoteSlot) (ws we : Int)
    (tasks : List UIProjectTime) (k : String) (pt : RemoteSlot) (v : TimeSlot)
    (cs ce : Int)
    (hnd : (current.map RemoteSlot.id).Nodup)
    (hc : dictGet (buildCurrentByTask (dedupLoop current []).1) k = some pt)
    (hd : dictGet (buildDesiredByTask (calculate_time_slots ws we tasks)) k
      = some v)
    (hcs : pt.start = some cs) (hce : pt.stop = some ce) :
    (needsUpdate pt v = true ↔
      secondUs < ((cs - v.start).natAbs : Int) ∨
      secondUs < ((ce - v.stop).natAbs : Int)) ∧
    (Operation.update pt.id v.start v.stop ∈ diffOps current ws we tasks ↔
      needsUpdate pt v = true) ∧
    (needsUpdate pt v = false →
      ∀ st en, Operation.update pt.id st en ∉ diffOps current ws we tasks) ∧
    needsUpdate ⟨0, "t", "", some 1000000, some 0, none⟩ ⟨"t", 0, 0, 0⟩ = false ∧
    needsUpdate ⟨0, "t", "", some 1010000, some 0, none⟩ ⟨"t", 0, 0, 0⟩ = true := by
  have hUmem : ∀ x ∈ (dedupLoop current []).1, x ∈ current ∧ x.task_id ≠ "" :=
    fun x hx => ⟨(dedup_unique_mem current [] x hx).1,
      (dedup_unique_mem current [] x hx).2.1⟩
  have hUnd := dedup_unique_tids_nodup current []
  have hcbt := cbt_eq_map (fun x hx => (hUmem x hx).2) hUnd
  have hptU : pt ∈ (dedupLoop current []).1 ∧ pt.task_id = k := by
    rw [hcbt] at hc
    exact mapGet_some _ k pt hc
  have hinv : ∀ st en,
      Operation.update pt.id st en ∈ diffOps current ws we tasks →
      needsUpdate pt v = true ∧ st = v.start ∧ en = v.stop := by
    intro st en hmem
    obtain ⟨p, hp, pt₂, hg, hid, hnu, hst, hen⟩ := update_mem_diffOps_inv hmem
    have hpt₂U : pt₂ ∈ (dedupLoop current []).1 ∧ pt₂.task_id = p.1 := by
      rw [hcbt] at hg
      exact mapGet_some _ p.1 pt₂ hg
    have hpteq : pt₂ = pt :=
      id_inj hnd (hUmem pt₂ hpt₂U.1).1 (hUmem pt hptU.1).1 hid
    subst hpteq
    have hk : p.1 = k := hpt₂U.2 ▸ hptU.2
    have hpv : p.2 = v := by
      have h1 : dictGet (buildDesiredByTask (calculate_time_slots ws we tasks))
          p.1 = some p.2 := mem_dictGet (dbt_keys_nodup _) hp
      rw [hk, hd] at h1
      exact (Option.some_inj.mp h1).symm
    rw [hpv] at hnu hst hen
    exact ⟨hnu, hst, hen⟩
  refine ⟨?_, ⟨?_, ?_⟩, ?_, by decide, by decide⟩
  · unfold needsUpdate
    rw [hcs, hce]
    simp
  · intro hmem
    exact (hinv _ _ hmem).1
  · intro hnu
    have hkv : (k, v) ∈ buildDesiredByTask (calculate_time_slots ws we tasks) :=
      dictGet_mem hd
    apply List.mem_append_right
    apply List.mem_flatMap.mpr
    refine ⟨(k, v), hkv, ?_⟩
    unfold upsertOpsFor
    rw [hc]
    show Operation.update pt.id v.start v.stop ∈
      (if needsUpdate pt v = true
        then [Operation.update pt.id v.start v.stop] else [])
    rw [if_pos hnu]
    exact List.mem_singleton.mpr rfl
  · intro hnu st en hmem
    rw [(hinv st en hmem).1] at hnu
    cases hnu

/-- Witness for C4 at a concrete input: a current slot whose start and end
both differ from the desired slot by exactly one second is not updated — no
update call for it appears in the diff. -/
theorem C4_witness :
    needsUpdate ⟨1, "t1", "N", some 1000000, some 1801000000, none⟩
      ⟨"t1", 0, 1800000000, 30⟩ = false ∧
    Operation.update 1 0 1800000000 ∉
      diffOps [⟨1, "t1", "N", some 1000000, some 1801000000, none⟩]
        0 3600000000 [⟨"t1", "A", 30, false⟩] :=
  ⟨by decide,
    (C4_update_tolerance [⟨1, "t1", "N", some 1000000, some 1801000000, none⟩]
      0 3600000000 [⟨"t1", "A", 30, false⟩] "t1"
      ⟨1, "t1", "N", some 1000000, some 1801000000, none⟩
      ⟨"t1", 0, 1800000000, 30⟩ 1000000 1801000000
      (by decide) (by decide) (by decide) rfl rfl).2.2.1 (by decide) 0
      1800000000⟩

theorem dedup_first_seen : ∀ (l : List RemoteSlot) (seen : List String)
    (k : String), k ≠ "" →
    (dedupLoop l seen).1.filter (fun x => decide (x.task_id = k)) =
      if k ∈ seen then []
      else (l.filter (fun x => decide (x.task_id = k))).take 1 := by
  intro l
  induction l with
  | nil =>
    intro seen k _
    by_cases hk : k ∈ seen
    · rw [if_pos hk]; rfl
    · rw [if_neg hk]; rfl
  | cons pt rest ih =>
    intro seen k hk
    rw [dedupLoop]
    by_cases h0 : pt.task_id = ""
    · rw [if_pos h0]
      have hne : ¬ (decide (pt.task_id = k) = true) := by
        simp only [decide_eq_true_iff]
        intro hc
        exact hk (hc ▸ h0)
      rw [List.filter_cons_of_neg (by simpa using hne)]
      exact ih seen k hk
    · rw [if_neg h0]
      by_cases hs : pt.task_id ∈ seen
      · rw [if_pos hs]
        by_cases hkseen : k ∈ seen
        · rw [if_pos hkseen]
          have := ih seen k hk
          rw [if_pos hkseen] at this
          exact this
        · rw [if_neg hkseen]
          have hne : pt.task_id ≠ k := fun hc => hkseen (hc ▸ hs)
          rw [List.filter_cons_of_neg (by simpa using hne)]
          have := ih seen k hk
          rw [if_neg hkseen] at this
          exact this
      · rw [if_neg hs]
        by_cases hpk : pt.task_id = k
        · subst hpk
          rw [if_neg hs]
          rw [List.filter_cons_of_pos (by simp),
            List.filter_cons_of_pos (by simp)]
          have := ih (pt.task_id :: seen) pt.task_id hk
          rw [if_pos (List.mem_cons_self _ _)] at this
          rw [this]
          rfl
        · have hrec := ih (pt.task_id :: seen) k hk
          have hseen' : (k ∈ pt.task_id :: seen) ↔ k ∈ seen := by
            simp only [List.mem_cons]
            constructor
            · intro h
              rcases h with h | h
              · exact absurd h.symm hpk
              · exact h
            · exact Or.inr
          rw [List.filter_cons_of_neg (by simpa using hpk),
            List.filter_cons_of_neg (by simpa using hpk)]
          by_cases hkseen : k ∈ seen
          · rw [if_pos hkseen]
            rw [if_pos (hseen'.mpr hkseen)] at hrec
            exact hrec
          · rw [if_neg hkseen]
            rw [if_neg (fun hc => hkseen (hseen'.mp hc))] at hrec
            exact hrec

/-- C5: Duplicate-slot normalization.  (1) every later duplicate collected
by the de-duplication pass gets a delete call in the issued diff; (2) for
every task id, the kept "current" list holds exactly the first-seen slot of
the fetched list with that task id (so duplicates are discarded unmerged:
the kept slot is the original first record, unchanged). -/
theorem C5_duplicate_normalization (current : List RemoteSlot) (ws we : Int)
    (tasks : List UIProjectTime) :
    (∀ x ∈ (dedupLoop current []).2,
      Operation.delete x.id ∈ diffOps current ws we tasks) ∧
    (∀ k : String, k ≠ "" →
      (dedupLoop current []).1.filter (fun x => decide (x.task_id = k)) =
        (current.filter (fun x => decide (x.task_id = k))).take 1) := by
  constructor
  · intro x hx
    unfold diffOps
    simp only
    apply List.mem_append_left
    apply List.mem_append_left
    exact List.mem_map.mpr ⟨x, hx, rfl⟩
  · intro k hk
    have := dedup_first_seen current [] k hk
    rw [if_neg (List.not_mem_nil k)] at this
    exact this

/-- Witness for C5 at a concrete input: two remote slots for task "t1"; the
second one is deleted and the kept current slot is the first one. -/
theorem C5_witness :
    Operation.delete 2 ∈
      diffOps [⟨1, "t1", "", some 0, some 600000000, none⟩,
               ⟨2, "t1", "", some 600000000, some 1200000000, none⟩]
        0 3600000000 [⟨"t1", "A", 60, false⟩] ∧
    (dedupLoop [⟨1, "t1", "", some 0, some 600000000, none⟩,
                ⟨2, "t1", "", some 600000000, some 1200000000, none⟩] []).1.filter
        (fun x => decide (x.task_id = "t1")) =
      [⟨1, "t1", "", some 0, some 600000000, none⟩] :=
  ⟨(C5_duplicate_normalization
      [⟨1, "t1", "", some 0, some 600000000, none⟩,
       ⟨2, "t1", "", some 600000000, some 1200000000, none⟩]
      0 3600000000 [⟨"t1", "A", 60, false⟩]).1
    ⟨2, "t1", "", some 600000000, some 1200000000, none⟩ (by decide),
   by decide⟩

/-- C6 counterexample: when the fetch raises, the source's
`_get_project_times_in_work_time` swallows the exception and returns `[]`
(`except Exception: ... return []`), so `apply_differential_updates`
proceeds with an empty current state and, far from issuing zero mutating
calls, creates a project time for the desired task. -/
theorem C6_counterexample :
    diffOps (get_project_times_in_work_time 0 3600000000 none) 0 3600000000
        [⟨"t1", "A", 30, false⟩] = [Operation.create "t1" 0 1800000000] ∧
    diffOps (get_project_times_in_work_time 0 3600000000 none) 0 3600000000
        [⟨"t1", "A", 30, false⟩] ≠ [] := by
  constructor
  · decide
  · decide

/-- C6 (amended): a failing fetch is converted into an empty current list,
and the reconciliation then runs a diff against that empty state: it issues
exactly one create per entry of the desired map and no update or delete
calls. -/
theorem C6_fetch_failure_behaviour (ws we : Int) (tasks : List UIProjectTime) :
    get_project_times_in_work_time ws we none = [] ∧
    diffOps (get_project_times_in_work_time ws we none) ws we tasks =
      (buildDesiredByTask (calculate_time_slots ws we tasks)).map
        (fun p => Operation.create p.1 p.2.start p.2.stop) := by
  refine ⟨rfl, ?_⟩
  show diffOps [] ws we tasks = _
  unfold diffOps
  simp only
  have h1 : dedupLoop [] [] = (([] : List RemoteSlot), ([] : List RemoteSlot)) := rfl
  rw [h1]
  have h2 : buildCurrentByTask [] = [] := rfl
  rw [h2]
  simp only [List.map_nil, List.filter_nil, List.nil_append]
  have : ∀ dbt : List (String × TimeSlot),
      dbt.flatMap (upsertOpsFor []) =
        dbt.map (fun p => Operation.create p.1 p.2.start p.2.stop) := by
    intro dbt
    induction dbt with
    | nil => rfl
    | cons p rest ih =>
      rw [List.flatMap_cons, List.map_cons, ih]
      rfl
  exact this _

/-- C7 counterexample: for a work period with a parsable start but neither
end nor duration hint, the range resolver `parse_working_time_range` does
not fall back to now — it raises `ValueError`. -/
theorem C7_counterexample :
    parse_working_time_range ⟨some 0, none, none⟩ =
      Except.error "Working time missing end time and duration" := rfl

/-- C7 (amended): for a work period with a present, parsable start, no end
and no duration hint, the fallback to the current time exists only in the
API-side helper `_calculate_ongoing_working_time_end_for_api` (used by the
project-time fetch); the standalone resolver `parse_working_time_range`
instead raises `ValueError`. -/
theorem C7_ongoing_fallback (wt : WorkingTime) (s now : Int)
    (hs : wt.start = some s) (he : wt.stop = none) (hd : wt.duration = none) :
    parse_working_time_range wt =
      Except.error "Working time missing end time and duration" ∧
    calculate_ongoing_working_time_end_for_api wt s now = now := by
  obtain ⟨a, b, c⟩ := wt
  simp only at hs he hd
  subst hs
  subst he
  subst hd
  exact ⟨rfl, rfl⟩

/-- Witness for C7 at a concrete input. -/
theorem C7_witness :
    parse_working_time_range ⟨some 0, none, none⟩ =
      Except.error "Working time missing end time and duration" ∧
    calculate_ongoing_working_time_end_for_api ⟨some 0, none, none⟩ 0 42 = 42 :=
  C7_ongoing_fallback ⟨some 0, none, none⟩ 0 42 rfl rfl rfl

/-- C8 counterexample: two tasks with identical `(task_name, task_id)` sort
keys but different durations form the same (unordered) task set in both
orders, yet the planner — whose sort is stable — lays them out in input
order, producing different slot sequences for the two permutations. -/
theorem C8_counterexample :
    ([⟨"t", "n", 30, false⟩, ⟨"t", "n", 60, false⟩] :
        List UIProjectTime).Perm
      [⟨"t", "n", 60, false⟩, ⟨"t", "n", 30, false⟩] ∧
    calculate_time_slots 0 3600000000
        [⟨"t", "n", 30, false⟩, ⟨"t", "n", 60, false⟩] ≠
      calculate_time_slots 0 3600000000
        [⟨"t", "n", 60, false⟩, ⟨"t", "n", 30, false⟩] :=
  ⟨List.Perm.swap _ _ _, by decide⟩

theorem C8_planner_aux {l : List UIProjectTime}
    (hnd : (l.map keyOf).Nodup) (hs : List.Sorted taskBefore l) :
    List.Sorted taskStrictBefore l := by
  have h1 : List.Pairwise (fun a b => keyOf a ≠ keyOf b) l :=
    List.pairwise_map.mp hnd
  have h2 := List.Pairwise.and hs h1
  apply h2.imp
  intro a b hab
  obtain ⟨hle, hne⟩ := hab
  unfold taskBefore keyLeb at hle
  unfold taskStrictBefore
  rcases Bool.or_eq_true_iff.mp hle with h | h
  · exact h
  · exact absurd (of_decide_eq_true h).symm hne

/-- C8 (amended): the planner filters out deleted and non-positive-duration
tasks and orders the rest descending by `(task_name, task_id)` (first two
conjuncts); and two planner runs over the same window with the same
unordered task set produce identical output slot sequences **provided** the
kept tasks have pairwise-distinct `(task_name, task_id)` keys (third
conjunct) — without that proviso the stable sort preserves input order of
equal keys and determinism fails. -/
theorem C8_planner_sort_determinism (ws we : Int) (l₁ l₂ : List UIProjectTime)
    (hperm : l₁.Perm l₂)
    (hnd : ((l₁.filter keepTask).map keyOf).Nodup) :
    (sortedTasks l₁).Perm (l₁.filter keepTask) ∧
    List.Sorted taskBefore (sortedTasks l₁) ∧
    calculate_time_slots ws we l₁ = calculate_time_slots ws we l₂ := by
  refine ⟨sortedTasks_perm l₁, sortedTasks_sorted l₁, ?_⟩
  have hfperm : (l₁.filter keepTask).Perm (l₂.filter keepTask) :=
    hperm.filter keepTask
  have hperm₁ : (sortedTasks l₁).Perm (sortedTasks l₂) :=
    ((sortedTasks_perm l₁).trans hfperm).trans (sortedTasks_perm l₂).symm
  have hnd₁ : ((sortedTasks l₁).map keyOf).Nodup :=
    (((sortedTasks_perm l₁).map keyOf).nodup_iff).mpr hnd
  have hnd₂ : ((sortedTasks l₂).map keyOf).Nodup :=
    ((hperm₁.map keyOf).nodup_iff).mp hnd₁
  have hsort₁ := C8_planner_aux hnd₁ (sortedTasks_sorted l₁)
  have hsort₂ := C8_planner_aux hnd₂ (sortedTasks_sorted l₂)
  haveI : IsAntisymm UIProjectTime taskStrictBefore :=
    ⟨fun a b h₁ h₂ => by
      unfold taskStrictBefore at h₁ h₂
      rw [keyLtb_asymm h₁] at h₂
      cases h₂⟩
  have heq : sortedTasks l₁ = sortedTasks l₂ :=
    List.eq_of_perm_of_sorted hperm₁ hsort₁ hsort₂
  unfold calculate_time_slots
  rw [heq]

/-- Witness for C8 at a concrete input: two distinct-key tasks given in the
two opposite orders produce the identical slot sequence. -/
theorem C8_witness :
    calculate_time_slots 0 3600000000
        [⟨"t1", "a", 30, false⟩, ⟨"t2", "b", 60, false⟩] =
      calculate_time_slots 0 3600000000
        [⟨"t2", "b", 60, false⟩, ⟨"t1", "a", 30, false⟩] :=
  (C8_planner_sort_determinism 0 3600000000
    [⟨"t1", "a", 30, false⟩, ⟨"t2", "b", 60, false⟩]
    [⟨"t2", "b", 60, false⟩, ⟨"t1", "a", 30, false⟩]
    (List.Perm.swap _ _ _) (by decide)).2.2

theorem sanitizeLoop_mem {ws : Int} : ∀ (l : List RemoteSlot)
    (pt : RemoteSlot) (st en : Int), pt ∈ l → pt.start = some st →
    pt.stop = some en → (sanitizeAdjust ws st en).2.2 = true →
    Operation.update pt.id (sanitizeAdjust ws st en).1
        (sanitizeAdjust ws st en).2.1 ∈ (sanitizeLoop ws l).1 ∧
    { pt with start := some (sanitizeAdjust ws st en).1,
              stop := some (sanitizeAdjust ws st en).2.1 } ∈
      (sanitizeLoop ws l).2 := by
  intro l
  induction l with
  | nil => intro pt st en h; cases h
  | cons q rest ih =>
    intro pt st en hmem hst hen hadj
    rw [sanitizeLoop]
    rcases List.mem_cons.mp hmem with h | h
    · subst h
      rw [hst, hen]
      simp only
      rw [hadj]
      simp only [if_pos rfl]
      exact ⟨List.mem_cons_self _ _, List.mem_cons_self _ _⟩
    · obtain ⟨h1, h2⟩ := ih pt st en h hst hen hadj
      cases hq1 : q.start with
      | none =>
        simp only [hq1]
        exact ⟨h1, h2⟩
      | some qs =>
        cases hq2 : q.stop with
        | none =>
          simp only [hq1, hq2]
          exact ⟨h1, h2⟩
        | some qe =>
          simp only [hq1, hq2]
          by_cases hq3 : (sanitizeAdjust ws qs qe).2.2 = true
          · rw [if_pos hq3]
            exact ⟨List.mem_cons_of_mem _ h1, List.mem_cons_of_mem _ h2⟩
          · rw [if_neg hq3]
            exact ⟨h1, List.mem_cons_of_mem _ h2⟩

/-- C9: Slot-start clamp in `sanitize_project_times`.  A fetched slot (start,
end and id present) starting before the window start is updated remotely so
that its start becomes the window start while its end is untouched; since
the slot overlapped the window, the clamp strictly shrinks its duration. -/
theorem C9_sanitize_clamp (ws we : Int) (storeState : List RemoteSlot)
    (pt : RemoteSlot) (st en : Int)
    (hwin : ws < we)
    (hmem : pt ∈ fetchProjectTimes ws we storeState)
    (hst : pt.start = some st) (hen : pt.stop = some en)
    (hbefore : st < ws) :
    Operation.update pt.id ws en ∈ (sanitize_project_times ws we storeState).1 ∧
    { pt with start := some ws, stop := some en } ∈
      (sanitize_project_times ws we storeState).2 ∧
    en - ws < en - st := by
  have hov := (List.mem_filter.mp hmem).2
  unfold overlapsWindow at hov
  rw [hst, hen] at hov
  have hgt : ws < en := by
    rcases Bool.or_eq_true_iff.mp hov with h | h
    · rcases Bool.or_eq_true_iff.mp h with h | h
      · obtain ⟨h1, _⟩ := Bool.and_eq_true_iff.mp h
        exact absurd (of_decide_eq_true h1) (not_le.mpr hbefore)
      · obtain ⟨h1, _⟩ := Bool.and_eq_true_iff.mp h
        exact of_decide_eq_true h1
    · obtain ⟨_, h2⟩ := Bool.and_eq_true_iff.mp h
      exact lt_of_lt_of_le hwin (of_decide_eq_true h2)
  have hadj : sanitizeAdjust ws st en = (ws, en, true) := by
    unfold sanitizeAdjust
    rw [if_pos hbefore]
    simp only
    rw [if_neg (not_lt.mpr (le_of_lt hgt))]
  have := sanitizeLoop_mem (fetchProjectTimes ws we storeState) pt st en
    (by simpa using hmem) hst hen (by rw [hadj])
  rw [hadj] at this
  exact ⟨this.1, this.2, by linarith⟩

/-- Witness for C9 at a concrete input: a slot starting 10 minutes before
its window is clamped to the window start, its end untouched. -/
theorem C9_witness :
    Operation.update 1 600000000 1200000000 ∈
      (sanitize_project_times 600000000 3600000000
        [⟨1, "t1", "", some 0, some 1200000000, none⟩]).1 ∧
    (⟨1, "t1", "", some 600000000, some 1200000000, none⟩ : RemoteSlot) ∈
      (sanitize_project_times 600000000 3600000000
        [⟨1, "t1", "", some 0, some 1200000000, none⟩]).2 ∧
    (1200000000 : Int) - 600000000 < 1200000000 - 0 :=
  C9_sanitize_clamp 600000000 3600000000
    [⟨1, "t1", "", some 0, some 1200000000, none⟩]
    ⟨1, "t1", "", some 0, some 1200000000, none⟩ 0 1200000000
    (by decide) (by decide) rfl rfl (by decide)

/-- C10: Update of an unknown task fails atomically: when the requested task
id does not occur among the task durations aggregated from the working
time's current remote slots, `update_ui_project_time` raises `ValueError`
and issues no mutating backend calls at all. -/
theorem C10_update_unknown_task (storeState : List RemoteSlot) (ws we : Int)
    (task_id : String) (duration_minutes : Int) (task_name : Option String)
    (habs : ∀ u ∈ consolidate_by_task (fetchProjectTimes ws we storeState),
      u.task_id ≠ task_id) :
    update_ui_project_time storeState ws we task_id duration_minutes task_name =
      ([], some ("Task with ID " ++ task_id ++ " not found in working time")) := by
  unfold update_ui_project_time
  have hfind : (consolidate_by_task (fetchProjectTimes ws we storeState)).find?
      (fun pt => pt.task_id = task_id) = none := by
    apply List.find?_eq_none.mpr
    intro u hu
    simp only [decide_eq_true_iff]
    exact habs u hu
  simp only [hfind]

/-- Witness for C10 at a concrete input: asking to update task "t9" when
only task "t1" is booked yields the error and an empty call list. -/
theorem C10_witness :
    update_ui_project_time [⟨1, "t1", "A", some 0, some 1800000000, none⟩]
        0 3600000000 "t9" 45 none =
      ([], some ("Task with ID " ++ "t9" ++ " not found in working time")) :=
  C10_update_unknown_task [⟨1, "t1", "A", some 0, some 1800000000, none⟩]
    0 3600000000 "t9" 45 none (by decide)

theorem applyOps_append (s : List RemoteSlot) (l₁ l₂ : List Operation) :
    applyOps s (l₁ ++ l₂) = applyOps (applyOps s l₁) l₂ :=
  List.foldl_append _ _ _ _

theorem le_foldr_max : ∀ (l : List Nat) (x : Nat), x ∈ l → x ≤ l.foldr max 0 := by
  intro l
  induction l with
  | nil => intro x h; cases h
  | cons a rest ih =>
    intro x h
    rcases List.mem_cons.mp h with h | h
    · subst h
      exact le_max_left _ _
    · exact le_trans (ih x h) (le_max_right _ _)

theorem freshId_not_mem (s : List RemoteSlot) :
    freshId s ∉ s.map RemoteSlot.id := by
  intro h
  have := le_foldr_max _ _ h
  unfold freshId at this
  omega

theorem entryUpd_id (cbt : List (String × RemoteSlot)) (p : String × TimeSlot)
    (x : RemoteSlot) : (entryUpd cbt p x).id = x.id ∧
      (entryUpd cbt p x).task_id = x.task_id := by
  unfold entryUpd
  split
  · split
    · split
      · exact ⟨rfl, rfl⟩
      · exact ⟨rfl, rfl⟩
    · exact ⟨rfl, rfl⟩
  · exact ⟨rfl, rfl⟩

theorem applyEntryUpdates_id (cbt : List (String × RemoteSlot)) :
    ∀ (entries : List (String × TimeSlot)) (x : RemoteSlot),
    (applyEntryUpdates cbt entries x).id = x.id ∧
    (applyEntryUpdates cbt entries x).task_id = x.task_id := by
  intro entries
  induction entries with
  | nil => intro x; exact ⟨rfl, rfl⟩
  | cons p rest ih =>
    intro x
    have h1 := entryUpd_id cbt p x
    have h2 := ih (entryUpd cbt p x)
    exact ⟨h2.1.trans h1.1, h2.2.trans h1.2⟩

theorem applyEntryUpdates_skip (cbt : List (String × RemoteSlot)) :
    ∀ (entries : List (String × TimeSlot)) (x : RemoteSlot),
    (∀ p ∈ entries, ∀ pt, dictGet cbt p.1 = some pt → pt.id ≠ x.id) →
    applyEntryUpdates cbt entries x = x := by
  intro entries
  induction entries with
  | nil => intro x _; rfl
  | cons p rest ih =>
    intro x hskip
    have hhead : entryUpd cbt p x = x := by
      unfold entryUpd
      split
      · split
        · split
          · rename_i pt hg hnu hid
            exact absurd hid.symm
              (hskip p (List.mem_cons_self _ _) pt hg)
          · rfl
        · rfl
      · rfl
    show applyEntryUpdates cbt rest (entryUpd cbt p x) = x
    rw [hhead]
    exact ih x (fun q hq => hskip q (List.mem_cons_of_mem _ hq))

theorem applyOps_deletes {α : Type} (g : α → Nat) : ∀ (ds : List α)
    (s : List RemoteSlot),
    applyOps s (ds.map (fun d => Operation.delete (g d))) =
      s.filter (fun x => decide (¬ x.id ∈ ds.map g)) := by
  intro ds
  induction ds with
  | nil =>
    intro s
    show s = s.filter (fun x => decide (¬ x.id ∈ ([] : List α).map g))
    symm
    apply List.filter_eq_self.mpr
    intro x _
    simp
  | cons d rest ih =>
    intro s
    rw [List.map_cons]
    show applyOps (applyOp s (Operation.delete (g d)))
      (rest.map (fun d => Operation.delete (g d))) = _
    rw [ih]
    show (s.filter (fun x => decide (x.id ≠ g d))).filter
        (fun x => decide (¬ x.id ∈ rest.map g)) = _
    rw [List.filter_filter]
    apply List.filter_congr
    intro x _
    by_cases h1 : x.id = g d <;> by_cases h2 : x.id ∈ rest.map g <;>
      simp [h1, h2]

theorem updById_id (i : Nat) (st en : Int) (x : RemoteSlot) :
    (updById i st en x).id = x.id ∧ (updById i st en x).task_id = x.task_id := by
  unfold updById
  split
  · exact ⟨rfl, rfl⟩
  · exact ⟨rfl, rfl⟩

theorem map_updById_id (i : Nat) (st en : Int) (t : List RemoteSlot) :
    (t.map (updById i st en)).map RemoteSlot.id = t.map RemoteSlot.id := by
  rw [List.map_map]
  apply List.map_congr_left
  intro a _
  exact (updById_id i st en a).1

theorem entryUpd_eq_updById {cbt : List (String × RemoteSlot)}
    {p : String × TimeSlot} {pt : RemoteSlot}
    (hg : dictGet cbt p.1 = some pt) (hnu : needsUpdate pt p.2 = true)
    (x : RemoteSlot) : entryUpd cbt p x = updById pt.id p.2.start p.2.stop x := by
  unfold entryUpd updById
  rw [hg]
  show (if needsUpdate pt p.2 = true then
    (if x.id = pt.id then
      { x with start := some p.2.start, stop := some p.2.stop } else x)
    else x) = _
  rw [if_pos hnu]

theorem entryUpd_eq_id_of_no_update {cbt : List (String × RemoteSlot)}
    {p : String × TimeSlot} {pt : RemoteSlot}
    (hg : dictGet cbt p.1 = some pt) (hnu : needsUpdate pt p.2 = false)
    (x : RemoteSlot) : entryUpd cbt p x = x := by
  unfold entryUpd
  rw [hg]
  show (if needsUpdate pt p.2 = true then
    (if x.id = pt.id then
      { x with start := some p.2.start, stop := some p.2.stop } else x)
    else x) = _
  rw [hnu]
  rfl

theorem entryUpd_eq_id_of_none {cbt : List (String × RemoteSlot)}
    {p : String × TimeSlot} (hg : dictGet cbt p.1 = none)
    (x : RemoteSlot) : entryUpd cbt p x = x := by
  unfold entryUpd
  rw [hg]

theorem applyOps_upserts (cbt : List (String × RemoteSlot)) :
    ∀ (entries : List (String × TimeSlot)) (t : List RemoteSlot),
    (∀ p ∈ entries, ∀ pt, dictGet cbt p.1 = some pt →
      pt.id ∈ t.map RemoteSlot.id) →
    ∃ created : List RemoteSlot,
      applyOps t (entries.flatMap (upsertOpsFor cbt)) =
        t.map (applyEntryUpdates cbt entries) ++ created ∧
      created.map slotData =
        (entries.filter (fun p => (dictGet cbt p.1).isNone)).map
          (fun p => (p.1, some p.2.start, some p.2.stop)) := by
  intro entries
  induction entries with
  | nil =>
    intro t _
    refine ⟨[], ?_, rfl⟩
    show t = t.map (applyEntryUpdates cbt []) ++ []
    rw [List.append_nil]
    symm
    calc t.map (applyEntryUpdates cbt [])
        = t.map (fun a => a) := List.map_congr_left (fun a _ => rfl)
      _ = t := List.map_id' t
  | cons p rest ih =>
    intro t hids
    rw [List.flatMap_cons, applyOps_append]
    cases hg : dictGet cbt p.1 with
    | none =>
      have hops : upsertOpsFor cbt p =
          [Operation.create p.1 p.2.start p.2.stop] := by
        unfold upsertOpsFor
        rw [hg]
      rw [hops]
      have happ : applyOps t [Operation.create p.1 p.2.start p.2.stop] =
          t ++ [⟨freshId t, p.1, "", some p.2.start, some p.2.stop, none⟩] := rfl
      rw [happ]
      obtain ⟨created', hres, hstrip⟩ :=
        ih (t ++ [⟨freshId t, p.1, "", some p.2.start, some p.2.stop, none⟩])
          (by
            intro q hq pt hgq
            rw [List.map_append]
            exact List.mem_append_left _
              (hids q (List.mem_cons_of_mem _ hq) pt hgq))
      refine ⟨⟨freshId t, p.1, "", some p.2.start, some p.2.stop, none⟩ ::
        created', ?_, ?_⟩
      · rw [hres, List.map_append]
        have hskip : applyEntryUpdates cbt rest
            ⟨freshId t, p.1, "", some p.2.start, some p.2.stop, none⟩ =
            ⟨freshId t, p.1, "", some p.2.start, some p.2.stop, none⟩ := by
          apply applyEntryUpdates_skip
          intro q hq pt hgq hc
          have hc2 : pt.id = freshId t := hc
          exact freshId_not_mem t
            (hc2 ▸ hids q (List.mem_cons_of_mem _ hq) pt hgq)
        have hmapeq : t.map (applyEntryUpdates cbt (p :: rest)) =
            t.map (applyEntryUpdates cbt rest) := by
          apply List.map_congr_left
          intro a _
          show applyEntryUpdates cbt rest (entryUpd cbt p a) = _
          rw [entryUpd_eq_id_of_none hg]
        rw [hmapeq]
        rw [List.map_singleton, hskip, List.append_assoc]
        rfl
      · rw [List.filter_cons_of_pos (by rw [hg]; rfl), List.map_cons, hstrip]
        rfl
    | some pt =>
      by_cases hnu : needsUpdate pt p.2 = true
      · have hops : upsertOpsFor cbt p =
            [Operation.update pt.id p.2.start p.2.stop] := by
          unfold upsertOpsFor
          rw [hg]
          show (if needsUpdate pt p.2 = true
            then [Operation.update pt.id p.2.start p.2.stop] else []) = _
          rw [if_pos hnu]
        rw [hops]
        have happ : applyOps t [Operation.update pt.id p.2.start p.2.stop] =
            t.map (updById pt.id p.2.start p.2.stop) := rfl
        rw [happ]
        obtain ⟨created', hres, hstrip⟩ :=
          ih (t.map (updById pt.id p.2.start p.2.stop))
            (by
              intro q hq pt' hgq
              rw [map_updById_id]
              exact hids q (List.mem_cons_of_mem _ hq) pt' hgq)
        refine ⟨created', ?_, ?_⟩
        · rw [hres, List.map_map]
          congr 1
          apply List.map_congr_left
          intro a _
          show applyEntryUpdates cbt rest
            (updById pt.id p.2.start p.2.stop a) =
            applyEntryUpdates cbt rest (entryUpd cbt p a)
          rw [entryUpd_eq_updById hg hnu]
        · rw [List.filter_cons_of_neg (by simp [hg]), hstrip]
      · have hops : upsertOpsFor cbt p = [] := by
          unfold upsertOpsFor
          rw [hg]
          show (if needsUpdate pt p.2 = true
            then [Operation.update pt.id p.2.start p.2.stop] else []) = _
          rw [if_neg hnu]
        rw [hops]
        have happ : applyOps t ([] : List Operation) = t := rfl
        rw [happ]
        obtain ⟨created', hres, hstrip⟩ := ih t
          (fun q hq pt' hgq => hids q (List.mem_cons_of_mem _ hq) pt' hgq)
        refine ⟨created', ?_, ?_⟩
        · rw [hres]
          congr 1
          apply List.map_congr_left
          intro a _
          show applyEntryUpdates cbt rest a =
            applyEntryUpdates cbt rest (entryUpd cbt p a)
          rw [entryUpd_eq_id_of_no_update hg
            (by rw [Bool.not_eq_true] at hnu; exact hnu)]
        · rw [List.filter_cons_of_neg (by simp [hg]), hstrip]

theorem dedup_unique_sublist : ∀ (l : List RemoteSlot) (seen : List String),
    (dedupLoop l seen).1.Sublist l := by
  intro l
  induction l with
  | nil => intro seen; simp [dedupLoop]
  | cons pt rest ih =>
    intro seen
    rw [dedupLoop]
    by_cases h0 : pt.task_id = ""
    · rw [if_pos h0]
      exact (ih seen).cons pt
    · rw [if_neg h0]
      by_cases hs : pt.task_id ∈ seen
      · rw [if_pos hs]
        exact (ih seen).cons pt
      · rw [if_neg hs]
        exact (ih (pt.task_id :: seen)).cons₂ pt

theorem dedup_dup_sublist : ∀ (l : List RemoteSlot) (seen : List String),
    (dedupLoop l seen).2.Sublist l := by
  intro l
  induction l with
  | nil => intro seen; simp [dedupLoop]
  | cons pt rest ih =>
    intro seen
    rw [dedupLoop]
    by_cases h0 : pt.task_id = ""
    · rw [if_pos h0]
      exact (ih seen).cons pt
    · rw [if_neg h0]
      by_cases hs : pt.task_id ∈ seen
      · rw [if_pos hs]
        exact (ih seen).cons₂ pt
      · rw [if_neg hs]
        exact (ih (pt.task_id :: seen)).cons pt

theorem applyEntryUpdates_lookup
    (U : List RemoteSlot) (hUnd : (U.map RemoteSlot.task_id).Nodup)
    (hidnd : (U.map RemoteSlot.id).Nodup) :
    ∀ (entries : List (String × TimeSlot)) (b : RemoteSlot) (v : TimeSlot),
    b ∈ U → dictGet entries b.task_id = some v →
    ((entries.map Prod.fst).Nodup) →
    applyEntryUpdates (U.map (fun x => (x.task_id, x))) entries b =
      if needsUpdate b v = true
      then { b with start := some v.start, stop := some v.stop } else b := by
  intro entries
  induction entries with
  | nil => intro b v _ hv _; cases hv
  | cons q rest ih =>
    obtain ⟨k', v'⟩ := q
    intro b v hb hv hkeys
    rw [List.map_cons, List.nodup_cons] at hkeys
    rw [dictGet] at hv
    show applyEntryUpdates (U.map (fun x => (x.task_id, x))) rest
      (entryUpd (U.map (fun x => (x.task_id, x))) (k', v') b) = _
    by_cases hqb : k' = b.task_id
    · rw [if_pos hqb] at hv
      have hv' : v' = v := Option.some_inj.mp hv
      subst hv'
      have hgb : dictGet (U.map (fun x => (x.task_id, x))) k' = some b := by
        rw [hqb]
        exact mapGet_of_mem hb hUnd
      have hskiprest : ∀ (x : RemoteSlot), x.id = b.id →
          applyEntryUpdates (U.map (fun x => (x.task_id, x))) rest x = x := by
        intro x hx
        apply applyEntryUpdates_skip
        intro p hp pt hgp hc
        obtain ⟨hptU, hpttid⟩ := mapGet_some U p.1 pt hgp
        have hne : pt ≠ b := by
          intro he
          apply hkeys.1
          show k' ∈ List.map Prod.fst rest
          have hpk : p.1 = k' := by rw [← hpttid, he, ← hqb]
          exact hpk ▸ List.mem_map.mpr ⟨p, hp, rfl⟩
        exact hne (id_inj hidnd hptU hb (hc.trans hx))
      by_cases hnu : needsUpdate b v' = true
      · rw [if_pos hnu]
        have hent : entryUpd (U.map (fun x => (x.task_id, x))) (k', v') b =
            { b with start := some v'.start, stop := some v'.stop } := by
          unfold entryUpd
          rw [hgb]
          show (if needsUpdate b v' = true then
            (if b.id = b.id then
              { b with start := some v'.start, stop := some v'.stop } else b)
            else b) = _
          rw [if_pos hnu, if_pos rfl]
        rw [hent]
        exact hskiprest _ rfl
      · rw [if_neg hnu]
        have hent : entryUpd (U.map (fun x => (x.task_id, x))) (k', v') b = b := by
          unfold entryUpd
          rw [hgb]
          show (if needsUpdate b v' = true then
            (if b.id = b.id then
              { b with start := some v'.start, stop := some v'.stop } else b)
            else b) = _
          rw [if_neg hnu]
        rw [hent]
        exact hskiprest _ rfl
    · rw [if_neg hqb] at hv
      have hent : entryUpd (U.map (fun x => (x.task_id, x))) (k', v') b = b := by
        unfold entryUpd
        cases hg : dictGet (U.map (fun x => (x.task_id, x))) k' with
        | none => rfl
        | some pt =>
          obtain ⟨hptU, hpttid⟩ := mapGet_some U k' pt hg
          have hne : pt ≠ b := fun he => hqb (by rw [← hpttid, he])
          show (if needsUpdate pt v' = true then
            (if b.id = pt.id then
              { b with start := some v'.start, stop := some v'.stop } else b)
            else b) = _
          by_cases hnu : needsUpdate pt v' = true
          · rw [if_pos hnu,
              if_neg (fun hc => hne (id_inj hidnd hptU hb hc.symm))]
          · rw [if_neg hnu]
      rw [hent]
      exact ih b v hb hv hkeys.2

theorem diffOps_as_append (s₀ : List RemoteSlot) (ws we : Int)
    (tasks : List UIProjectTime) :
    diffOps (fetchProjectTimes ws we s₀) ws we tasks =
      ((reconDups ws we s₀).map (fun d => Operation.delete d.id) ++
        (reconStale ws we s₀ tasks).map (fun p => Operation.delete p.2.id)) ++
      (reconDbt ws we tasks).flatMap (upsertOpsFor (reconCbt ws we s₀)) := rfl

theorem needsUpdate_exact {x : RemoteSlot} {v : TimeSlot}
    (hs : x.start = some v.start) (he : x.stop = some v.stop) :
    needsUpdate x v = false := by
  unfold needsUpdate
  rw [hs, he]
  simp [secondUs]

theorem calc_slots_tid {ws we : Int} {tasks : List UIProjectTime}
    (htid : ∀ t ∈ tasks, t.task_id ≠ "") :
    ∀ sl ∈ calculate_time_slots ws we tasks, sl.task_id ≠ "" := by
  intro sl hsl
  obtain ⟨_, t, ht, h2, _⟩ := slotLoop_mem _ _ sl hsl
  rw [h2]
  exact htid t (mem_sortedTasks ht).1

theorem calc_slots_visible {ws we : Int} {tasks : List UIProjectTime} :
    ∀ sl ∈ calculate_time_slots ws we tasks,
    (ws ≤ sl.start ∧ sl.start < we) ∨ (ws < sl.stop ∧ sl.stop ≤ we) ∨
      (sl.start ≤ ws ∧ we ≤ sl.stop) := by
  intro sl hsl
  apply slotLoop_visible ws we (sortedTasks tasks) ws (min_le_left _ _) _ sl hsl
  intro t ht
  have := (mem_sortedTasks ht).2
  unfold keepTask at this
  obtain ⟨_, h2⟩ := Bool.and_eq_true_iff.mp this
  exact of_decide_eq_true h2

theorem visible_of_slot {ws we : Int} {tasks : List UIProjectTime}
    {x : RemoteSlot} {sl : TimeSlot} (hsl : sl ∈ calculate_time_slots ws we tasks)
    (hs : x.start = some sl.start) (he : x.stop = some sl.stop) :
    overlapsWindow ws we x = true := by
  unfold overlapsWindow
  rw [hs, he]
  rcases calc_slots_visible sl hsl with ⟨h1, h2⟩ | ⟨h1, h2⟩ | ⟨h1, h2⟩
  · apply Bool.or_eq_true_iff.mpr
    left
    apply Bool.or_eq_true_iff.mpr
    left
    rw [Bool.and_eq_true_iff]
    exact ⟨decide_eq_true h1, decide_eq_true h2⟩
  · apply Bool.or_eq_true_iff.mpr
    left
    apply Bool.or_eq_true_iff.mpr
    right
    rw [Bool.and_eq_true_iff]
    exact ⟨decide_eq_true h1, decide_eq_true h2⟩
  · apply Bool.or_eq_true_iff.mpr
    right
    rw [Bool.and_eq_true_iff]
    exact ⟨decide_eq_true h1, decide_eq_true h2⟩

theorem recon_unique_basic (ws we : Int) (s₀ : List RemoteSlot)
    (hids : (s₀.map RemoteSlot.id).Nodup) :
    (∀ x ∈ reconUnique ws we s₀, x ∈ s₀ ∧ x.task_id ≠ "") ∧
    ((reconUnique ws we s₀).map RemoteSlot.task_id).Nodup ∧
    ((reconUnique ws we s₀).map RemoteSlot.id).Nodup ∧
    reconCbt ws we s₀ =
      (reconUnique ws we s₀).map (fun x => (x.task_id, x)) := by
  have hC₁sub : (fetchProjectTimes ws we s₀).Sublist s₀ := List.filter_sublist _
  have hC₁ids : ((fetchProjectTimes ws we s₀).map RemoteSlot.id).Nodup :=
    (hC₁sub.map _).nodup hids
  have hUsub : (reconUnique ws we s₀).Sublist (fetchProjectTimes ws we s₀) :=
    dedup_unique_sublist _ _
  have hmem : ∀ x ∈ reconUnique ws we s₀, x ∈ s₀ ∧ x.task_id ≠ "" := by
    intro x hx
    obtain ⟨h1, h2, _⟩ := dedup_unique_mem _ _ x hx
    exact ⟨hC₁sub.mem h1, h2⟩
  have htids := dedup_unique_tids_nodup (fetchProjectTimes ws we s₀) []
  refine ⟨hmem, htids, (hUsub.map _).nodup hC₁ids, ?_⟩
  exact cbt_eq_map (fun x hx => (hmem x hx).2) htids

theorem recon_kept (ws we : Int) (s₀ : List RemoteSlot)
    (tasks : List UIProjectTime) (hids : (s₀.map RemoteSlot.id).Nodup) :
    ∀ p ∈ reconDbt ws we tasks, ∀ pt,
    dictGet (reconCbt ws we s₀) p.1 = some pt →
    pt ∈ reconSurvivors ws we s₀ tasks := by
  obtain ⟨hmem, htids, _, hcbt⟩ := recon_unique_basic ws we s₀ hids
  intro p hp pt hg
  rw [hcbt] at hg
  obtain ⟨hptU, hpttid⟩ := mapGet_some _ p.1 pt hg
  have hpts₀ : pt ∈ s₀ := (hmem pt hptU).1
  have hC₁nd : (fetchProjectTimes ws we s₀).Nodup :=
    List.Nodup.of_map RemoteSlot.id
      (((List.filter_sublist s₀).map RemoteSlot.id).nodup hids)
  have hnotdup : pt.id ∉ (reconDups ws we s₀).map RemoteSlot.id := by
    intro hc
    obtain ⟨d, hd, hdid⟩ := List.mem_map.mp hc
    have hds₀ : d ∈ s₀ :=
      (List.filter_sublist s₀).mem (dedup_dup_mem _ _ d hd)
    have : d = pt := id_inj hids hds₀ hpts₀ hdid
    subst this
    exact dedup_unique_not_dup _ [] hC₁nd d hptU hd
  have hnotstale : pt.id ∉ (reconStale ws we s₀ tasks).map (fun p => p.2.id) := by
    intro hc
    obtain ⟨q, hq, hqid⟩ := List.mem_map.mp hc
    have hqcbt : q ∈ reconCbt ws we s₀ := (List.mem_filter.mp hq).1
    have hqcond := (List.mem_filter.mp hq).2
    rw [hcbt] at hqcbt
    obtain ⟨y, hy, hyq⟩ := List.mem_map.mp hqcbt
    have hys₀ : y ∈ s₀ := (hmem y hy).1
    have hyid : y.id = pt.id := by rw [← hqid, ← hyq]
    have hypt : y = pt := id_inj hids hys₀ hpts₀ hyid
    have hq1 : q.1 = p.1 := by rw [← hyq]; rw [hypt, hpttid]
    rw [hq1] at hqcond
    have hsome : dictGet (reconDbt ws we tasks) p.1 = some p.2 :=
      mem_dictGet (dbt_keys_nodup _) hp
    rw [hsome] at hqcond
    cases hqcond
  unfold reconSurvivors
  apply List.mem_filter.mpr
  refine ⟨List.mem_filter.mpr ⟨hpts₀, decide_eq_true hnotdup⟩,
    decide_eq_true hnotstale⟩

theorem applyOps_deletes_pairs (ds : List (String × RemoteSlot))
    (s : List RemoteSlot) :
    applyOps s (ds.map (fun p => Operation.delete p.2.id)) =
      s.filter (fun x => decide (¬ x.id ∈ ds.map (fun p => p.2.id))) :=
  applyOps_deletes (fun p => p.2.id) ds s

theorem store_after_run (ws we : Int) (s₀ : List RemoteSlot)
    (tasks : List UIProjectTime) (hids : (s₀.map RemoteSlot.id).Nodup) :
    ∃ created : List RemoteSlot,
      applyOps s₀ (diffOps (fetchProjectTimes ws we s₀) ws we tasks) =
        (reconSurvivors ws we s₀ tasks).map (reconUpd ws we s₀ tasks) ++
          created ∧
      created.map slotData =
        ((reconDbt ws we tasks).filter
          (fun p => (dictGet (reconCbt ws we s₀) p.1).isNone)).map
            (fun p => (p.1, some p.2.start, some p.2.stop)) := by
  rw [diffOps_as_append, applyOps_append, applyOps_append,
    applyOps_deletes RemoteSlot.id, applyOps_deletes_pairs]
  have hsurv : ((s₀.filter (fun x =>
      decide (¬ x.id ∈ (reconDups ws we s₀).map RemoteSlot.id))).filter
        (fun x => decide
          (¬ x.id ∈ (reconStale ws we s₀ tasks).map (fun p => p.2.id)))) =
      reconSurvivors ws we s₀ tasks := rfl
  rw [hsurv]
  apply applyOps_upserts
  intro p hp pt hg
  exact List.mem_map.mpr ⟨pt, recon_kept ws we s₀ tasks hids p hp pt hg, rfl⟩

theorem recon_upd_of_current (ws we : Int) (s₀ : List RemoteSlot)
    (tasks : List UIProjectTime) (hids : (s₀.map RemoteSlot.id).Nodup)
    {b : RemoteSlot} {v : TimeSlot} (hb : b ∈ reconUnique ws we s₀)
    (hv : dictGet (reconDbt ws we tasks) b.task_id = some v) :
    reconUpd ws we s₀ tasks b =
      if needsUpdate b v = true
      then { b with start := some v.start, stop := some v.stop } else b := by
  obtain ⟨_, htids, hUids, hcbt⟩ := recon_unique_basic ws we s₀ hids
  unfold reconUpd
  rw [hcbt]
  exact applyEntryUpdates_lookup _ htids hUids _ b v hb hv (dbt_keys_nodup _)

theorem recon_upd_invisible (ws we : Int) (s₀ : List RemoteSlot)
    (tasks : List UIProjectTime) (hids : (s₀.map RemoteSlot.id).Nodup)
    {b : RemoteSlot} (hbs : b ∈ s₀) (hbv : overlapsWindow ws we b = false) :
    reconUpd ws we s₀ tasks b = b := by
  obtain ⟨hmem, _, _, hcbt⟩ := recon_unique_basic ws we s₀ hids
  unfold reconUpd
  apply applyEntryUpdates_skip
  intro p hp pt hg hc
  rw [hcbt] at hg
  obtain ⟨hptU, _⟩ := mapGet_some _ p.1 pt hg
  have hptC₁ : pt ∈ fetchProjectTimes ws we s₀ :=
    (dedup_unique_mem _ _ pt hptU).1
  have hpts₀ : pt ∈ s₀ := (List.mem_filter.mp hptC₁).1
  have : pt = b := id_inj hids hpts₀ hbs hc
  subst this
  rw [(List.mem_filter.mp hptC₁).2] at hbv
  cases hbv

theorem recon_current_key (ws we : Int) (s₀ : List RemoteSlot)
    (tasks : List UIProjectTime) (hids : (s₀.map RemoteSlot.id).Nodup)
    {b : RemoteSlot} (hb : b ∈ reconSurvivors ws we s₀ tasks)
    (hbv : overlapsWindow ws we b = true) (hbt : b.task_id ≠ "") :
    b ∈ reconUnique ws we s₀ ∧
    ∃ v, dictGet (reconDbt ws we tasks) b.task_id = some v := by
  obtain ⟨_, _, _, hcbt⟩ := recon_unique_basic ws we s₀ hids
  unfold reconSurvivors at hb
  have h1 := List.mem_filter.mp hb
  have h2 := List.mem_filter.mp h1.1
  have hbs₀ : b ∈ s₀ := h2.1
  have hnotdup : ¬ b.id ∈ (reconDups ws we s₀).map RemoteSlot.id :=
    of_decide_eq_true h2.2
  have hnotstale : ¬ b.id ∈ (reconStale ws we s₀ tasks).map (fun p => p.2.id) :=
    of_decide_eq_true h1.2
  have hbC₁ : b ∈ fetchProjectTimes ws we s₀ :=
    List.mem_filter.mpr ⟨hbs₀, hbv⟩
  have hbU : b ∈ reconUnique ws we s₀ := by
    rcases dedup_partition _ [] b hbC₁ with h | h | h
    · exact h
    · exact absurd (List.mem_map.mpr ⟨b, h, rfl⟩) hnotdup
    · exact absurd h hbt
  refine ⟨hbU, ?_⟩
  cases hg : dictGet (reconDbt ws we tasks) b.task_id with
  | some v => exact ⟨v, rfl⟩
  | none =>
    exfalso
    apply hnotstale
    apply List.mem_map.mpr
    refine ⟨(b.task_id, b), ?_, rfl⟩
    apply List.mem_filter.mpr
    constructor
    · rw [hcbt]
      exact List.mem_map.mpr ⟨b, hbU, rfl⟩
    · rw [hg]
      rfl

theorem created_facts (ws we : Int) (s₀ : List RemoteSlot)
    (tasks : List UIProjectTime) (htid : ∀ t ∈ tasks, t.task_id ≠ "")
    (created : List RemoteSlot)
    (hstrip : created.map slotData =
      ((reconDbt ws we tasks).filter
        (fun p => (dictGet (reconCbt ws we s₀) p.1).isNone)).map
          (fun p => (p.1, some p.2.start, some p.2.stop))) :
    ∀ c ∈ created, overlapsWindow ws we c = true ∧ c.task_id ≠ "" ∧
      ∃ v, dictGet (reconDbt ws we tasks) c.task_id = some v ∧
        needsUpdate c v = false := by
  intro c hc
  have h1 : slotData c ∈ created.map slotData := List.mem_map.mpr ⟨c, hc, rfl⟩
  rw [hstrip] at h1
  obtain ⟨q, hq, heq⟩ := List.mem_map.mp h1
  have hqdbt : q ∈ reconDbt ws we tasks := (List.mem_filter.mp hq).1
  obtain ⟨hqslot, hqtid⟩ := dbt_mem hqdbt
  have heq' : q.1 = c.task_id ∧ some q.2.start = c.start ∧
      some q.2.stop = c.stop := by
    have e1 := congrArg Prod.fst heq
    have e2 := congrArg (fun y : String × Option Int × Option Int => y.2.1) heq
    have e3 := congrArg (fun y : String × Option Int × Option Int => y.2.2) heq
    exact ⟨e1, e2, e3⟩
  refine ⟨visible_of_slot hqslot heq'.2.1.symm heq'.2.2.symm, ?_, q.2, ?_, ?_⟩
  · rw [← heq'.1]
    rw [← hqtid]
    exact calc_slots_tid htid q.2 hqslot
  · rw [← heq'.1]
    exact mem_dictGet (dbt_keys_nodup _) hqdbt
  · exact needsUpdate_exact heq'.2.1.symm heq'.2.2.symm

theorem part1_facts (ws we : Int) (s₀ : List RemoteSlot)
    (tasks : List UIProjectTime) (hids : (s₀.map RemoteSlot.id).Nodup) :
    ∀ b ∈ reconSurvivors ws we s₀ tasks,
    overlapsWindow ws we (reconUpd ws we s₀ tasks b) = true →
    (reconUpd ws we s₀ tasks b).task_id ≠ "" →
    b ∈ reconUnique ws we s₀ ∧
    (reconUpd ws we s₀ tasks b).task_id = b.task_id ∧
    ∃ v, dictGet (reconDbt ws we tasks) b.task_id = some v ∧
      needsUpdate (reconUpd ws we s₀ tasks b) v = false := by
  intro b hb hub htb
  have htideq : (reconUpd ws we s₀ tasks b).task_id = b.task_id :=
    (applyEntryUpdates_id _ _ b).2
  have hbs₀ : b ∈ s₀ :=
    (List.mem_filter.mp (List.mem_filter.mp hb).1).1
  by_cases hbv : overlapsWindow ws we b = true
  · obtain ⟨hbU, v, hv⟩ := recon_current_key ws we s₀ tasks hids hb hbv
      (htideq ▸ htb)
    have hupd := recon_upd_of_current ws we s₀ tasks hids hbU hv
    by_cases hnu : needsUpdate b v = true
    · rw [if_pos hnu] at hupd
      refine ⟨hbU, htideq, v, hv, ?_⟩
      rw [hupd]
      exact needsUpdate_exact rfl rfl
    · rw [if_neg hnu] at hupd
      refine ⟨hbU, htideq, v, hv, ?_⟩
      rw [hupd]
      exact Bool.not_eq_true _ ▸ hnu
  · exfalso
    have hbf : overlapsWindow ws we b = false := by
      cases hx : overlapsWindow ws we b with
      | false => rfl
      | true => exact absurd hx hbv
    rw [recon_upd_invisible ws we s₀ tasks hids hbs₀ hbf, hbf] at hub
    cases hub

theorem kept_visible (ws we : Int) (s₀ : List RemoteSlot)
    (tasks : List UIProjectTime) (hids : (s₀.map RemoteSlot.id).Nodup) :
    ∀ p ∈ reconDbt ws we tasks, ∀ b,
    dictGet (reconCbt ws we s₀) p.1 = some b →
    overlapsWindow ws we (reconUpd ws we s₀ tasks b) = true ∧
    (reconUpd ws we s₀ tasks b).task_id = p.1 := by
  obtain ⟨hmem, _, _, hcbt⟩ := recon_unique_basic ws we s₀ hids
  intro p hp b hg
  rw [hcbt] at hg
  obtain ⟨hbU, hbtid⟩ := mapGet_some _ p.1 b hg
  have hv : dictGet (reconDbt ws we tasks) b.task_id = some p.2 := by
    rw [hbtid]
    exact mem_dictGet (dbt_keys_nodup _) hp
  have hupd := recon_upd_of_current ws we s₀ tasks hids hbU hv
  have htideq : (reconUpd ws we s₀ tasks b).task_id = b.task_id :=
    (applyEntryUpdates_id _ _ b).2
  obtain ⟨hpslot, _⟩ := dbt_mem hp
  constructor
  · by_cases hnu : needsUpdate b p.2 = true
    · rw [if_pos hnu] at hupd
      rw [hupd]
      exact visible_of_slot hpslot rfl rfl
    · rw [if_neg hnu] at hupd
      rw [hupd]
      exact (List.mem_filter.mp (dedup_unique_mem _ _ b hbU).1).2
  · rw [htideq, hbtid]

/-- C1: Idempotence of reconciliation.  For a working time window with
parsable start and end, a store whose records carry pairwise-distinct ids,
and a desired task list whose tasks have (non-empty) task ids: if the
backend applies the calls issued by one `apply_differential_updates` run
faithfully, a second run over the same window with the same desired list
issues zero mutating calls. -/
theorem C1_reconciliation_idempotent (s₀ : List RemoteSlot) (ws we : Int)
    (tasks : List UIProjectTime)
    (hids : (s₀.map RemoteSlot.id).Nodup)
    (htid : ∀ t ∈ tasks, t.task_id ≠ "") :
    diffOps
      (fetchProjectTimes ws we
        (applyOps s₀ (diffOps (fetchProjectTimes ws we s₀) ws we tasks)))
      ws we tasks = [] := by
  obtain ⟨created, hs₁, hstrip⟩ := store_after_run ws we s₀ tasks hids
  obtain ⟨hmem, htids, hUids, hcbt⟩ := recon_unique_basic ws we s₀ hids
  have hcre := created_facts ws we s₀ tasks htid created hstrip
  have hp1 := part1_facts ws we s₀ tasks hids
  have hkv := kept_visible ws we s₀ tasks hids
  rw [hs₁]
  have hfetch : fetchProjectTimes ws we
      ((reconSurvivors ws we s₀ tasks).map (reconUpd ws we s₀ tasks) ++
        created) =
      ((reconSurvivors ws we s₀ tasks).map
        (reconUpd ws we s₀ tasks)).filter (overlapsWindow ws we) ++ created := by
    unfold fetchProjectTimes
    rw [List.filter_append]
    congr 1
    exact List.filter_eq_self.mpr (fun c hc => (hcre c hc).1)
  rw [hfetch]
  set part1 := ((reconSurvivors ws we s₀ tasks).map
    (reconUpd ws we s₀ tasks)).filter (overlapsWindow ws we) with hpart1
  -- facts about the second current list
  have hC₂mem : ∀ x ∈ part1 ++ created, x.task_id ≠ "" →
      ∃ v, dictGet (reconDbt ws we tasks) x.task_id = some v ∧
        needsUpdate x v = false := by
    intro x hx hxt
    rcases List.mem_append.mp hx with hx | hx
    · obtain ⟨hx1, hx2⟩ := List.mem_filter.mp hx
      obtain ⟨b, hb, hbx⟩ := List.mem_map.mp hx1
      subst hbx
      obtain ⟨_, htideq, v, hv, hnu⟩ := hp1 b hb hx2 hxt
      rw [htideq]
      exact ⟨v, hv, hnu⟩
    · obtain ⟨_, _, v, hv, hnu⟩ := hcre x hx
      exact ⟨v, hv, hnu⟩
  have hrecover : ∀ x ∈ part1.filter hasTaskId,
      ∃ b ∈ reconUnique ws we s₀,
        x = reconUpd ws we s₀ tasks b ∧ b.task_id = x.task_id := by
    intro x hx
    obtain ⟨hx', hxt⟩ := List.mem_filter.mp hx
    obtain ⟨hx1, hx2⟩ := List.mem_filter.mp hx'
    obtain ⟨b, hb, hbx⟩ := List.mem_map.mp hx1
    subst hbx
    have hxt' : (reconUpd ws we s₀ tasks b).task_id ≠ "" := by
      unfold hasTaskId at hxt
      exact of_decide_eq_true hxt
    obtain ⟨hbU, htideq, _⟩ := hp1 b hb hx2 hxt'
    exact ⟨b, hbU, rfl, htideq.symm⟩
  have hcreated_tids : created.map RemoteSlot.task_id =
      ((reconDbt ws we tasks).filter
        (fun p => (dictGet (reconCbt ws we s₀) p.1).isNone)).map Prod.fst := by
    have h1 := congrArg
      (List.map (fun y : String × Option Int × Option Int => y.1)) hstrip
    rw [List.map_map, List.map_map] at h1
    have h2 : created.map
        ((fun y : String × Option Int × Option Int => y.1) ∘ slotData) =
        created.map RemoteSlot.task_id :=
      List.map_congr_left (fun c _ => rfl)
    have h3 : ((reconDbt ws we tasks).filter
        (fun p => (dictGet (reconCbt ws we s₀) p.1).isNone)).map
          ((fun y : String × Option Int × Option Int => y.1) ∘
            (fun p : String × TimeSlot => (p.1, some p.2.start, some p.2.stop))) =
        ((reconDbt ws we tasks).filter
          (fun p => (dictGet (reconCbt ws we s₀) p.1).isNone)).map Prod.fst :=
      List.map_congr_left (fun p _ => rfl)
    rw [h2, h3] at h1
    exact h1
  have hnd_created : (created.map RemoteSlot.task_id).Nodup := by
    rw [hcreated_tids]
    exact ((List.filter_sublist _).map Prod.fst).nodup (dbt_keys_nodup _)
  have hnd_part1 : ((part1.filter hasTaskId).map RemoteSlot.task_id).Nodup := by
    have hBBids : ((reconSurvivors ws we s₀ tasks).map RemoteSlot.id).Nodup := by
      have h1 : (reconSurvivors ws we s₀ tasks).Sublist s₀ :=
        (List.filter_sublist _).trans (List.filter_sublist _)
      exact (h1.map _).nodup hids
    have hmapids : (((reconSurvivors ws we s₀ tasks).map
        (reconUpd ws we s₀ tasks)).map RemoteSlot.id).Nodup := by
      have heq : ((reconSurvivors ws we s₀ tasks).map
          (reconUpd ws we s₀ tasks)).map RemoteSlot.id =
          (reconSurvivors ws we s₀ tasks).map RemoteSlot.id := by
        rw [List.map_map]
        exact List.map_congr_left (fun b _ => (applyEntryUpdates_id _ _ b).1)
      rw [heq]
      exact hBBids
    have hsub : (part1.filter hasTaskId).Sublist
        ((reconSurvivors ws we s₀ tasks).map (reconUpd ws we s₀ tasks)) :=
      (List.filter_sublist _).trans (List.filter_sublist _)
    have hidnd : ((part1.filter hasTaskId).map RemoteSlot.id).Nodup :=
      (hsub.map _).nodup hmapids
    have hpw_id : List.Pairwise (fun a b : RemoteSlot => a.id ≠ b.id)
        (part1.filter hasTaskId) := List.pairwise_map.mp hidnd
    apply List.pairwise_map.mpr
    apply List.Pairwise.imp_of_mem ?_ hpw_id
    intro a b ha hb hid heq
    apply hid
    obtain ⟨ba, hba, hae, hat⟩ := hrecover a ha
    obtain ⟨bb, hbb, hbe, hbt⟩ := hrecover b hb
    have : ba = bb := by
      apply List.inj_on_of_nodup_map htids hba hbb
      rw [hat, hbt, heq]
    rw [hae, hbe, this]
  have hdisj : List.Disjoint ((part1.filter hasTaskId).map RemoteSlot.task_id)
      (created.map RemoteSlot.task_id) := by
    intro k hk1 hk2
    obtain ⟨x, hx, hxk⟩ := List.mem_map.mp hk1
    obtain ⟨b, hbU, hbe, hbt⟩ := hrecover x hx
    rw [hcreated_tids] at hk2
    obtain ⟨q, hq, hqk⟩ := List.mem_map.mp hk2
    have hqnone := (List.mem_filter.mp hq).2
    have hbget : dictGet (reconCbt ws we s₀) b.task_id = some b := by
      rw [hcbt]
      exact mapGet_of_mem hbU htids
    rw [hbt, hxk, ← hqk] at hbget
    rw [hbget] at hqnone
    cases hqnone
  have hF3 : (((part1 ++ created).filter hasTaskId).map RemoteSlot.task_id).Nodup := by
    have hsplit : (part1 ++ created).filter hasTaskId =
        part1.filter hasTaskId ++ created := by
      rw [List.filter_append]
      congr 1
      apply List.filter_eq_self.mpr
      intro c hc
      unfold hasTaskId
      exact decide_eq_true (hcre c hc).2.1
    rw [hsplit, List.map_append]
    exact List.nodup_append.mpr ⟨hnd_part1, hnd_created, hdisj⟩
  have hF2 : ∀ p ∈ reconDbt ws we tasks,
      ∃ x ∈ part1 ++ created, x.task_id = p.1 := by
    intro p hp
    cases hgc : dictGet (reconCbt ws we s₀) p.1 with
    | some b =>
      refine ⟨reconUpd ws we s₀ tasks b, ?_, (hkv p hp b hgc).2⟩
      apply List.mem_append_left
      apply List.mem_filter.mpr
      constructor
      · exact List.mem_map.mpr
          ⟨b, recon_kept ws we s₀ tasks hids p hp b hgc, rfl⟩
      · exact (hkv p hp b hgc).1
    | none =>
      have hpF : p ∈ (reconDbt ws we tasks).filter
          (fun p => (dictGet (reconCbt ws we s₀) p.1).isNone) :=
        List.mem_filter.mpr ⟨hp, by rw [hgc]; rfl⟩
      have h1 : ((p.1, some p.2.start, some p.2.stop) :
          String × Option Int × Option Int) ∈ created.map slotData := by
        rw [hstrip]
        exact List.mem_map.mpr ⟨p, hpF, rfl⟩
      obtain ⟨c, hc, hceq⟩ := List.mem_map.mp h1
      exact ⟨c, List.mem_append_right _ hc, congrArg Prod.fst hceq⟩
  -- the second diff is empty
  have hded : dedupLoop (part1 ++ created) [] =
      ((part1 ++ created).filter hasTaskId, []) :=
    dedup_clean _ [] hF3 (fun x _ => Or.inr (List.not_mem_nil _))
  have hcbt₂ : buildCurrentByTask ((part1 ++ created).filter hasTaskId) =
      ((part1 ++ created).filter hasTaskId).map (fun x => (x.task_id, x)) :=
    cbt_eq_map
      (fun x hx => by
        have := (List.mem_filter.mp hx).2
        unfold hasTaskId at this
        exact of_decide_eq_true this)
      hF3
  have hstale₂ : (buildCurrentByTask ((part1 ++ created).filter hasTaskId)).filter
      (fun p => (dictGet (buildDesiredByTask
        (calculate_time_slots ws we tasks)) p.1).isNone) = [] := by
    apply List.filter_eq_nil_iff.mpr
    intro q hq
    rw [hcbt₂] at hq
    obtain ⟨x, hx, hxq⟩ := List.mem_map.mp hq
    obtain ⟨hxC₂, hxt⟩ := List.mem_filter.mp hx
    have hxt' : x.task_id ≠ "" := by
      unfold hasTaskId at hxt
      exact of_decide_eq_true hxt
    obtain ⟨v, hv, _⟩ := hC₂mem x hxC₂ hxt'
    subst hxq
    intro hc
    have hv' : dictGet (buildDesiredByTask
        (calculate_time_slots ws we tasks)) x.task_id = some v := hv
    rw [hv'] at hc
    cases hc
  have hups₂ : (buildDesiredByTask (calculate_time_slots ws we tasks)).flatMap
      (upsertOpsFor (buildCurrentByTask
        ((part1 ++ created).filter hasTaskId))) = [] := by
    apply List.flatMap_eq_nil_iff.mpr
    intro p hp
    have hpdbt : p ∈ reconDbt ws we tasks := hp
    obtain ⟨hpslot, hptid⟩ := dbt_mem hpdbt
    have hp1ne : p.1 ≠ "" := by
      rw [← hptid]
      exact calc_slots_tid htid p.2 hpslot
    obtain ⟨x, hxC₂, hxtid⟩ := hF2 p hpdbt
    have hxf : x ∈ (part1 ++ created).filter hasTaskId :=
      List.mem_filter.mpr ⟨hxC₂, by
        unfold hasTaskId
        exact decide_eq_true (hxtid ▸ hp1ne)⟩
    have hkey : p.1 ∈ (buildCurrentByTask
        ((part1 ++ created).filter hasTaskId)).map Prod.fst := by
      rw [hcbt₂, map_keys_eq]
      exact List.mem_map.mpr ⟨x, hxf, hxtid⟩
    have hsome := dictGet_isSome_of_mem_keys hkey
    cases hg : dictGet (buildCurrentByTask
        ((part1 ++ created).filter hasTaskId)) p.1 with
    | none =>
      rw [hg] at hsome
      cases hsome
    | some y =>
      have hy : y ∈ (part1 ++ created).filter hasTaskId ∧ y.task_id = p.1 := by
        rw [hcbt₂] at hg
        exact mapGet_some _ p.1 y hg
      have hyC₂ : y ∈ part1 ++ created := (List.mem_filter.mp hy.1).1
      have hyt : y.task_id ≠ "" := by
        rw [hy.2]
        exact hp1ne
      obtain ⟨v, hv, hnu⟩ := hC₂mem y hyC₂ hyt
      have hvp : v = p.2 := by
        rw [hy.2] at hv
        have hsome' : dictGet (reconDbt ws we tasks) p.1 = some p.2 :=
          mem_dictGet (dbt_keys_nodup _) hpdbt
        rw [hsome'] at hv
        exact (Option.some_inj.mp hv).symm
      subst hvp
      unfold upsertOpsFor
      rw [hg]
      show (if needsUpdate y p.2 = true
        then [Operation.update y.id p.2.start p.2.stop] else []) = []
      rw [hnu]
      rfl
  show diffOps (part1 ++ created) ws we tasks = []
  unfold diffOps
  simp only [hded, hcbt₂]
  rw [← hcbt₂, hstale₂, hups₂]
  simp

/-- Witness for C1 at a concrete input: a store holding one slot for task
"t1" and one stale slot for task "t3", reconciled against desired tasks
"t1" (30 min) and "t2" (15 min) — the first run deletes, updates and
creates; the second run issues nothing. -/
theorem C1_witness :
    (([⟨1, "t1", "", some 0, some 1200000000, none⟩,
       ⟨2, "t3", "", some 1200000000, some 1500000000, none⟩] :
        List RemoteSlot).map RemoteSlot.id).Nodup ∧
    (∀ t ∈ ([⟨"t1", "a", 30, false⟩, ⟨"t2", "b", 15, false⟩] :
        List UIProjectTime), t.task_id ≠ "") ∧
    diffOps
      (fetchProjectTimes 0 3600000000
        (applyOps
          [⟨1, "t1", "", some 0, some 1200000000, none⟩,
           ⟨2, "t3", "", some 1200000000, some 1500000000, none⟩]
          (diffOps
            (fetchProjectTimes 0 3600000000
              [⟨1, "t1", "", some 0, some 1200000000, none⟩,
               ⟨2, "t3", "", some 1200000000, some 1500000000, none⟩])
            0 3600000000
            [⟨"t1", "a", 30, false⟩, ⟨"t2", "b", 15, false⟩])))
      0 3600000000 [⟨"t1", "a", 30, false⟩, ⟨"t2", "b", 15, false⟩] = [] :=
  ⟨by decide, by decide,
    C1_reconciliation_idempotent
      [⟨1, "t1", "", some 0, some 1200000000, none⟩,
       ⟨2, "t3", "", some 1200000000, some 1500000000, none⟩]
      0 3600000000 [⟨"t1", "a", 30, false⟩, ⟨"t2", "b", 15, false⟩]
      (by decide) (by decide)⟩

